import Mathlib

/-!
A verification development for the core of the `go.git-scm` library: the Git
object model, the packfile codec (variable-length integers, delta objects,
the packfile writer), the pkt-line framing layer, the in-memory repository
backend, and the upload-pack negotiation engine.

Each Go function that a claim depends on is translated here as an executable
Lean function over explicit byte lists and explicit state.  Machine integers
are modelled as `Nat` with explicit `% 2 ^ w` reductions where Go overflow
semantics matter; Go panics that the code can actually hit are modelled as
distinguished error values; fallible functions return `Except`.
-/

namespace GitScm

/-- ASCII bytes of a string literal.  Go strings are plain byte strings; every
literal appearing in this development is ASCII, where Go runes and bytes
coincide. -/
def str (s : String) : List Nat :=
  s.data.map Char.toNat

/-! ## pkt-line framing (`pktline` package)

Translation of `readLineLen`, `ReadLine`, `writeLineLen` and `WriteLine`.
The reader is a thin state machine over the underlying byte stream; since
`ReadLine` consumes a prefix of the stream and its result depends only on
that prefix, it is modelled as a function of the byte list. -/

/-- The hex-digit switch inside `readLineLen`: bytes `A`-`F`, `a`-`f` and
`0`-`9` contribute their hexadecimal value, and — exactly as in the source,
which has no default case — every other byte silently contributes zero. -/
def hexDigitVal (c : Nat) : Nat :=
  if 65 ≤ c ∧ c ≤ 70 then c - 65 + 10
  else if 97 ≤ c ∧ c ≤ 102 then c - 97 + 10
  else if 48 ≤ c ∧ c ≤ 57 then c - 48
  else 0

/-- The accumulated value of the four length bytes:
`x |= digit << ((4-i-1)*4)` for `i = 0,1,2,3`.  The nibbles are disjoint, so
the Go `|=` accumulations are the or-chain below. -/
def pktLineLenVal (a b c d : Nat) : Nat :=
  hexDigitVal a <<< 12 ||| hexDigitVal b <<< 8 ||| hexDigitVal c <<< 4 |||
    hexDigitVal d

/-- Result of `Reader.ReadLine`.  `flushEOF` is the `"", io.EOF` result at a
flush-pkt; `errEOF` and `errUnexpectedEOF` are the underlying `io.ReadFull`
errors (the latter carrying whatever partial payload was read). -/
inductive PktRead where
  | line (payload : List Nat)
  | flushEOF
  | errEOF
  | errUnexpectedEOF (partialPayload : List Nat)
deriving DecidableEq

/-- `readLineLen` (part_002): read four bytes with `io.ReadFull`, fold them
through the hex switch, and subtract the four bytes of the length itself.
`none` models the `io.ReadFull` error when fewer than four bytes remain. -/
def pktReadLineLen (bs : List Nat) : Option (Int × List Nat) :=
  match bs with
  | a :: b :: c :: d :: rest => some ((pktLineLenVal a b c d : Int) - 4, rest)
  | _ => none

/-- `Reader.ReadLine`: read the length; a negative remainder is a flush-pkt
(`"", io.EOF`); otherwise read that many payload bytes, reporting
`io.ErrUnexpectedEOF` with the partial payload on a short read. -/
def pktReadLine (bs : List Nat) : PktRead :=
  match bs with
  | a :: b :: c :: d :: rest =>
    let v := pktLineLenVal a b c d
    if (v : Int) - 4 < 0 then .flushEOF
    else if rest.length < v - 4 then .errUnexpectedEOF rest
    else .line (rest.take (v - 4))
  | [] => .errEOF
  | _ :: _ => .errUnexpectedEOF []

/-- The digit table `"0123456789abcdef"` of `writeLineLen`. -/
def pktHexDigits : List Nat :=
  str "0123456789abcdef"

/-- `writeLineLen`: add four for the length bytes themselves and emit the four
nibbles, most significant first. -/
def pktWriteLineLen (x : Nat) : List Nat :=
  let y := x + 4
  [pktHexDigits.getD (y >>> 12 &&& 15) 0,
   pktHexDigits.getD (y >>> 8 &&& 15) 0,
   pktHexDigits.getD (y >>> 4 &&& 15) 0,
   pktHexDigits.getD (y >>> 0 &&& 15) 0]

/-- Error of `Writer.WriteLine`. -/
inductive PktWriteErr where
  | tooLong
deriving DecidableEq

/-- `MaxPayloadLen`. -/
def maxPayloadLen : Nat := 65520

/-- `Writer.WriteLine`: refuse payloads longer than `MaxPayloadLen`, else
emit the length followed by the payload. -/
def pktWriteLine (p : List Nat) : Except PktWriteErr (List Nat) :=
  if p.length > maxPayloadLen then .error .tooLong
  else .ok (pktWriteLineLen p.length ++ p)

/-! ## Variable-length integers (`packfile/base128`)

`ReadLE` delegates to `encoding/binary.ReadUvarint`; `WriteLE` to
`binary.PutUvarint`.  `ReadMBE`/`WriteMBE` are the modified big-endian
codec.  The byte-reader argument becomes a byte list from which a prefix
is consumed; each function returns the remaining list.  `uint64`
arithmetic appears as `Nat` with truncation spelled out where Go can
actually wrap. -/

/-- Errors of the varint readers: stream exhaustion and 64-bit overflow. -/
inductive VarintErr where
  | eof
  | overflow
deriving DecidableEq

/-- `binary.PutUvarint` (as written by `WriteLE`): emit `byte(x)|0x80` and
shift by seven while `x >= 0x80`, then the final byte. -/
def writeLE (x : Nat) : List Nat :=
  if x < 128 then [x]
  else (x % 256 ||| 128) :: writeLE (x / 128)
decreasing_by
  simp only [not_lt] at *
  omega

/-- The loop of `binary.ReadUvarint` as of the library's Go era: read bytes
until one without the continuation bit; declare overflow when the
terminating group lands at index above 9, or at index 9 with a value above 1.
`acc` is `x`, `s` the shift, `i` the loop counter.  The shifted group is
truncated to 64 bits exactly as the `uint64` arithmetic does. -/
def readLEAux (acc s i : Nat) : List Nat → Except VarintErr (Nat × List Nat)
  | [] => .error .eof
  | b :: rest =>
    if b % 256 < 128 then
      if i > 9 ∨ (i = 9 ∧ b % 256 > 1) then .error .overflow
      else .ok (acc ||| ((b % 256) <<< s) % 2 ^ 64, rest)
    else readLEAux (acc ||| ((b % 256 &&& 127) <<< s) % 2 ^ 64) (s + 7) (i + 1)
      rest

/-- `ReadLE`. -/
def readLE (bs : List Nat) : Except VarintErr (Nat × List Nat) :=
  readLEAux 0 0 0 bs

/-- The backwards loop of `WriteMBE` producing the continuation bytes:
each step emits `byte(x)|0x80` for the current (already decremented)
accumulator and continues with `x>>7 - 1` until that would wrap below zero. -/
def writeMBEBytes (z : Nat) : List Nat :=
  if z / 128 = 0 then [z % 256 ||| 128]
  else writeMBEBytes (z / 128 - 1) ++ [z % 256 ||| 128]
decreasing_by
  omega

/-- `WriteMBE`: final byte `byte(x) & 0x7F`, preceded — when `x>>7` is not
zero — by the continuation chain for `x>>7 - 1`. -/
def writeMBE (x : Nat) : List Nat :=
  if x / 128 = 0 then [x % 256 &&& 127]
  else writeMBEBytes (x / 128 - 1) ++ [x % 256 &&& 127]

/-- The loop of `ReadMBE`: while the previous byte `c` has the continuation
bit, check the overflow guard, then read the next byte and fold it in with
the add-one-and-shift step.  The guard ensures `(x+1)<<7` cannot wrap, so no
truncation appears in the step. -/
def readMBEAux (x c : Nat) (bs : List Nat) : Except VarintErr (Nat × List Nat) :=
  if c % 256 &&& 128 = 0 then .ok (x, bs)
  else if 2 ^ 57 - 1 ≤ x then .error .overflow
  else match bs with
    | [] => .error .eof
    | c2 :: rest => readMBEAux ((x + 1) <<< 7 ||| (c2 % 256 &&& 127)) c2 rest
termination_by bs.length
decreasing_by
  simp

/-- `ReadMBE`. -/
def readMBE : List Nat → Except VarintErr (Nat × List Nat)
  | [] => .error .eof
  | c :: rest => readMBEAux (c % 256 &&& 127) c rest

/-- A well-formed varint byte chain: nonempty, every byte an actual byte,
the continuation bit set on all but the last byte and clear on the last. -/
def varintChain : List Nat → Bool
  | [] => false
  | [b] => b < 128
  | b :: rest => 128 ≤ b && b < 256 && varintChain rest

/-- The value denoted by a little-endian base-128 chain. -/
def leChainVal : List Nat → Nat
  | [] => 0
  | b :: rest => b % 128 + 128 * leChainVal rest

/-- The value denoted by a modified big-endian base-128 chain. -/
def mbeChainVal : List Nat → Nat
  | [] => 0
  | c :: rest => rest.foldl (fun a c2 => (a + 1) * 128 + c2 % 128) (c % 128)

/-! ## The Git object model (`object` package)

Objects form a closed tagged variant.  An `ID` is the 20-byte SHA-1 name;
nothing in the claims below depends on the digest function itself, so `ID`s
are plain byte lists compared byte-wise, and repositories map arbitrary
`ID`s to objects exactly as the in-memory backend does. -/

/-- A 20-byte object name. -/
abbrev ID := List Nat

/-- `object.ZeroID`: twenty zero bytes, "no object". -/
def zeroID : ID := List.replicate 20 0

/-- The Git object types (`object.Type`), including the internal
`TypeUnknown`. -/
inductive ObjType where
  | commit
  | tree
  | blob
  | tag
  | unknown
deriving DecidableEq

/-- `object.TreeInfo`: the mode and target of one tree entry. -/
structure TreeInfo where
  mode : Nat
  target : ID
deriving DecidableEq

/-- `object.Tree`: a map from filename (byte string) to entry metadata.
The Go map is modelled as an association list looked up by first match;
actual maps have no duplicate keys. -/
abbrev TreeData := List (List Nat × TreeInfo)

/-- The tree-entry modes. -/
def modeTree : Nat := 0o40000

def modeBlob : Nat := 0o100644

def modeExec : Nat := 0o100755

def modeSymlink : Nat := 0o120000

def modeGitlink : Nat := 0o160000

/-- `object.Signature`.  The `time.Time` field is its observable content:
the Unix second and the fixed-zone offset in seconds. -/
structure SigData where
  name : List Nat
  email : List Nat
  unixTime : Int
  tzOffsetSeconds : Int
deriving DecidableEq

/-- A Git object: one of the four standard kinds. -/
inductive Obj where
  | blob (data : List Nat)
  | tree (entries : TreeData)
  | commit (treeID : ID) (parents : List ID) (author committer : SigData)
      (message : List Nat)
  | tag (target : ID) (targetType : ObjType) (tagName : List Nat)
      (tagger : SigData) (message : List Nat)
deriving DecidableEq

/-- `object.TypeOf`. -/
def typeOf : Obj → ObjType
  | .blob _ => .blob
  | .tree _ => .tree
  | .commit _ _ _ _ _ => .commit
  | .tag _ _ _ _ _ => .tag

/-- The outgoing references of an object, in the order `repository.Walk`
pushes them: a commit references its tree and then its parents, a tree the
target of each entry, a tag its target, a blob nothing.  (The Go code walks
tree entries in unspecified map order; the model fixes the entry-list
order, which no claim depends on.) -/
def objRefs : Obj → List ID
  | .blob _ => []
  | .tree es => es.map (fun p => p.2.target)
  | .commit treeID parents _ _ _ => treeID :: parents
  | .tag target _ _ _ _ => [target]

/-! ## The in-memory repository (`repository` and `repository/mem`)

The three guarded dictionaries of the backend become two association
lists (`HEAD` plays no part in any claim).  Refnames are byte strings. -/

/-- Repository errors (`repository.Err*`). -/
inductive RepoErr where
  | invalidRef
  | refMismatch
  | refExist
  | refNotExist
  | objectNotExist
deriving DecidableEq

/-- The repository state: content-addressed objects and the ref table. -/
structure Repo where
  objects : List (ID × Obj)
  refs : List (List Nat × ID)
deriving DecidableEq

/-- `repo.GetObject`: map lookup, `ErrObjectNotExist` when absent. -/
def getObject (r : Repo) (id : ID) : Except RepoErr Obj :=
  match r.objects.lookup id with
  | some o => .ok o
  | none => .error .objectNotExist

/-- `strings.Contains` on byte strings. -/
def hasInfix (pat : List Nat) : List Nat → Bool
  | [] => pat.isEmpty
  | b :: t => pat.isPrefixOf (b :: t) || hasInfix pat t

/-- `repository.IsValidRef`, clause for clause: rooted at `refs/`, no `/.`
or `..` or `//` or `@` followed by an opening brace or backslash anywhere,
no control bytes nor any of space, `~`, `^`, `:`, `?`, `[`, `DEL`, and no
trailing `/`, `.` or `.lock`.  (All tested runes are ASCII, so the
byte-level check coincides with the rune-level one.) -/
def isValidRef (name : List Nat) : Bool :=
  (str "refs/").isPrefixOf name &&
  !(hasInfix (str "/.") name) &&
  !(hasInfix (str "..") name) &&
  name.all (fun r =>
    !(r < 32 || r == 127 || r == 32 || r == 126 || r == 94 || r == 58 ||
      r == 63 || r == 91)) &&
  !((str "/").isSuffixOf name) &&
  !(hasInfix (str "//") name) &&
  !((str ".").isSuffixOf name) &&
  !((str ".lock").isSuffixOf name) &&
  !(hasInfix [64, 123] name) &&
  !(hasInfix [92] name)

/-- Go `r.refs[name] = newID`: replace the binding if present, else add it. -/
def setRef (refs : List (List Nat × ID)) (name : List Nat) (id : ID) :
    List (List Nat × ID) :=
  if (refs.lookup name).isSome then
    refs.map (fun p => if p.1 == name then (p.1, id) else p)
  else refs ++ [(name, id)]

/-- Go `delete(r.refs, name)`. -/
def delRef (refs : List (List Nat × ID)) (name : List Nat) :
    List (List Nat × ID) :=
  refs.filter (fun p => !(p.1 == name))

/-- `repo.UpdateRef` of the in-memory backend, line for line: validate the
name; read the current value (zero when absent); on a mismatch with `oldID`
report not-exist / exists / mismatch according to which side is zero; then
either delete (a no-op when the ref was absent) or — after checking that the
new target object exists — store `newID`.  Every error is returned before
any mutation, so an error leaves the repository unchanged. -/
def updateRef (r : Repo) (name : List Nat) (oldID newID : ID) :
    Except RepoErr Repo :=
  if !(isValidRef name) then .error .invalidRef
  else
    let id := (r.refs.lookup name).getD zeroID
    if id ≠ oldID then
      if id = zeroID then .error .refNotExist
      else if oldID = zeroID then .error .refExist
      else .error .refMismatch
    else if newID = zeroID then .ok (Repo.mk r.objects (delRef r.refs name))
    else
      match r.objects.lookup newID with
      | none => .error .objectNotExist
      | some _ => .ok (Repo.mk r.objects (setRef r.refs name newID))

/-! ## Tree serialization (`object.Tree`) -/

/-- Decimal ASCII digits of a number (the `percent d` verb). -/
def decimalDigits (n : Nat) : List Nat :=
  (Nat.toDigits 10 n).map Char.toNat

/-- Octal ASCII digits of a number, no leading zeros (the `percent o`
verb used for tree modes). -/
def octalDigits (n : Nat) : List Nat :=
  (Nat.toDigits 8 n).map Char.toNat

/-- `Type.String`. -/
def typeName : ObjType → List Nat
  | .commit => str "commit"
  | .tree => str "tree"
  | .blob => str "blob"
  | .tag => str "tag"
  | .unknown => []

/-- `prependHeader`: the canonical Git object header.  (The Go function
rejects non-standard types; every call below passes a standard one.) -/
def prependHeader (ty : ObjType) (body : List Nat) : List Nat :=
  typeName ty ++ [32] ++ decimalDigits body.length ++ [0] ++ body

/-- `strings.TrimSuffix(name, slash)`: drop one trailing slash byte if
present. -/
def trimSuffixSlash (n : List Nat) : List Nat :=
  if [47].isSuffixOf n then n.take (n.length - 1) else n

/-- Byte-wise lexicographic order on byte strings — the Go `<` on
strings, weakened to its reflexive closure for sorting. -/
def lexLe : List Nat → List Nat → Bool
  | [], _ => true
  | _ :: _, [] => false
  | a :: as, b :: bs =>
    if a < b then true
    else if b < a then false
    else lexLe as bs

/-- `Tree.Names`: collect every entry name, with a slash appended to
sub-tree names, sort byte-wise, and strip the slashes again.  (Go sorts a
snapshot of the map's keys; the order of the input list is irrelevant after
sorting, and `List.mergeSort` produces the same ascending sequence.) -/
def treeNames (t : TreeData) : List (List Nat) :=
  ((t.map (fun p => if p.2.mode = modeTree then p.1 ++ [47] else p.1)).mergeSort
    lexLe).map trimSuffixSlash

/-- One marshaled tree entry: `<octal mode> <name>NUL<20-byte id>`, the
entry data looked up by the (trimmed) name, with Go's zero `TreeInfo` as
the default for a missing key. -/
def treeEntryBytes (t : TreeData) (name : List Nat) : List Nat :=
  let ti := (List.lookup name t).getD (TreeInfo.mk 0 zeroID)
  octalDigits ti.mode ++ [32] ++ name ++ [0] ++ ti.target

/-- `Tree.MarshalBinary` body: the entries concatenated in `Names()`
order. -/
def marshalTreeBody (t : TreeData) : List Nat :=
  ((treeNames t).map (treeEntryBytes t)).flatten

/-- `Tree.MarshalBinary`. -/
def marshalTree (t : TreeData) : List Nat :=
  prependHeader .tree (marshalTreeBody t)

/-- The canonical sort key of a name within a tree: a virtual trailing
slash for directory entries. -/
def treeSortKey (t : TreeData) (name : List Nat) : List Nat :=
  if ((List.lookup name t).getD (TreeInfo.mk 0 zeroID)).mode = modeTree then
    name ++ [47]
  else name

/-! ## Text serialization of commits, tags and signatures -/

/-- Lowercase hex digit. -/
def hexDigitChar (n : Nat) : Nat :=
  if n < 10 then 48 + n else 97 + (n - 10)

/-- `ID.String`: forty lowercase hex digits. -/
def idHex (id : ID) : List Nat :=
  id.flatMap (fun b => [hexDigitChar (b % 256 / 16), hexDigitChar (b % 16)])

/-- Decimal rendering of a possibly negative number (`percent d`). -/
def intDecimal (i : Int) : List Nat :=
  if i < 0 then 45 :: decimalDigits i.natAbs else decimalDigits i.natAbs

/-- Two-digit zero-padded decimal (for hour and minute fields). -/
def pad2 (n : Nat) : List Nat :=
  if n < 10 then [48, 48 + n] else decimalDigits n

/-- `time.Time.Format("-0700")`: sign, two hour digits, two minute digits
of the fixed-zone offset. -/
def sigOffsetBytes (ofs : Int) : List Nat :=
  (if ofs < 0 then [45] else [43]) ++
    pad2 (ofs.natAbs / 3600) ++ pad2 (ofs.natAbs % 3600 / 60)

/-- `Signature.String`: `Name <Email> <unix> <±HHMM>`. -/
def sigBytes (s : SigData) : List Nat :=
  s.name ++ [32, 60] ++ s.email ++ [62, 32] ++ intDecimal s.unixTime ++
    [32] ++ sigOffsetBytes s.tzOffsetSeconds

/-- `Commit.MarshalText`: tree line, parent lines, author, committer,
blank line, message. -/
def marshalCommitText (treeID : ID) (parents : List ID)
    (author committer : SigData) (message : List Nat) : List Nat :=
  str "tree " ++ idHex treeID ++ [10] ++
  (parents.map (fun p => str "parent " ++ idHex p ++ [10])).flatten ++
  str "author " ++ sigBytes author ++ [10] ++
  str "committer " ++ sigBytes committer ++ [10] ++
  [10] ++ message

/-- `Tag.MarshalText`: object, type, tag, tagger, blank line, message. -/
def marshalTagText (target : ID) (targetType : ObjType) (tagName : List Nat)
    (tagger : SigData) (message : List Nat) : List Nat :=
  str "object " ++ idHex target ++ [10] ++
  str "type " ++ typeName targetType ++ [10] ++
  str "tag " ++ tagName ++ [10] ++
  str "tagger " ++ sigBytes tagger ++ [10] ++
  [10] ++ message

/-- `internal.MarshalObj`: the canonical binary representation minus the
object header (the text form for all kinds except trees, whose binary body
is the entry list). -/
def marshalObjBody : Obj → List Nat
  | .blob d => d
  | .tree t => marshalTreeBody t
  | .commit treeID parents author committer message =>
    marshalCommitText treeID parents author committer message
  | .tag target targetType tagName tagger message =>
    marshalTagText target targetType tagName tagger message

/-- `object.Marshal` / `MarshalBinary`: header plus body. -/
def marshalObj (o : Obj) : List Nat :=
  prependHeader (typeOf o) (marshalObjBody o)

/-! ## The packfile writer (`packfile` package, current `Writer`)

Emitted bytes are collected in an explicit output list.  zlib compression
is kept opaque: the writer is parameterized by the `compress` function, and
no claim depends on the compressed bytes themselves. -/

/-- Errors of the packfile writer relevant to the claims. -/
inductive PackErr where
  | tooManyObjects
  | sizeRange
deriving DecidableEq

/-- The packfile type codes (`object.Type` is the code itself in Go). -/
def typeCode : ObjType → Nat
  | .commit => 1
  | .tree => 2
  | .blob => 3
  | .tag => 4
  | .unknown => 0

/-- Big-endian 32-bit encoding. -/
def be32 (n : Nat) : List Nat :=
  [n / 2 ^ 24 % 256, n / 2 ^ 16 % 256, n / 2 ^ 8 % 256, n % 256]

/-- `writeObjHeader`: range-check the size, then emit the packed
type-and-size header as a little-endian base-128 number with the three
type bits at positions 4-6. -/
def writeObjHeader (ty : ObjType) (size : Nat) : Except PackErr (List Nat) :=
  if size > 0x1FFFFFFFFFFFFFFF then .error .sizeRange
  else .ok (writeLE ((size.ldiff 15) <<< 3 ||| typeCode ty <<< 4 |||
    (size &&& 15)))

/-- The packfile `Writer`: the number of objects still expected and the
bytes emitted so far (the running SHA-1 digest is determined by those
bytes and plays no part in the claims). -/
structure PackWriter where
  n : Nat
  out : List Nat
deriving DecidableEq

/-- `NewWriter`: reject counts that do not fit in an unsigned 32-bit
integer, else emit magic, version 3 and the object count. -/
def packNewWriter (n : Nat) : Except PackErr PackWriter :=
  if n % 2 ^ 32 ≠ n then .error .tooManyObjects
  else .ok (PackWriter.mk n (str "PACK" ++ be32 3 ++ be32 n))

/-- `Writer.Write`: refuse immediately — before emitting anything — once
the declared object count is exhausted; otherwise marshal the object, emit
the packed header and the compressed body, and decrement the count.  The
result pairs the Go error with the writer state after the call. -/
def packWrite (compress : List Nat → List Nat) (w : PackWriter) (obj : Obj) :
    Option PackErr × PackWriter :=
  if w.n = 0 then (some .tooManyObjects, w)
  else
    let data := marshalObjBody obj
    match writeObjHeader (typeOf obj) data.length with
    | .error e => (some e, w)
    | .ok hdr => (none, PackWriter.mk (w.n - 1) (w.out ++ hdr ++ compress data))

/-- Writing a list of objects in order, stopping at the first error — the
upload-pack emit loop around `Writer.Write`. -/
def packWriteAll (compress : List Nat → List Nat) :
    PackWriter → List Obj → Option PackErr × PackWriter
  | w, [] => (none, w)
  | w, o :: os =>
    match packWrite compress w o with
    | (some e, w2) => (some e, w2)
    | (none, w2) => packWriteAll compress w2 os

/-! ## Delta objects (`packfile/delta`)

`Unmarshal` parses a delta body into length preamble plus an instruction
list; `Object.Apply` replays the instructions against the marshaled base
bytes.  The copy instruction reads through an `io.SectionReader`, which
stops silently at the end of the base instead of failing. -/

/-- Errors of the delta codec: the apply sanity check (`ErrApply`), and the
stream errors of `Unmarshal` (short reads and varint overflow). -/
inductive DeltaErr where
  | errApply
  | eof
  | varintOverflow
deriving DecidableEq

/-- One delta instruction. -/
inductive DeltaOp where
  | insert (bytes : List Nat)
  | copy (off len : Nat)
deriving DecidableEq

/-- `op.Apply`: an insert writes its bytes; a copy writes the bytes of
`base` from `off` up to `off + len`, truncated at the end of `base`
(`io.Copy` over an `io.NewSectionReader` returns no error at EOF). -/
def opApply (base : List Nat) : DeltaOp → List Nat
  | .insert bs => bs
  | .copy off len => (base.drop off).take len

/-- `opList.Apply`: the instructions in order into one buffer. -/
def opsApply (base : List Nat) (ops : List DeltaOp) : List Nat :=
  (ops.map (opApply base)).flatten

/-- A parsed delta object.  The Go fields are `int`s holding `uint64`
varint values; they are kept as `Nat`. -/
structure DeltaObj where
  baseLen : Nat
  resultLen : Nat
  ops : List DeltaOp
deriving DecidableEq

/-- `Object.Apply` on the marshaled base bytes: reject a base of the wrong
length, replay the instructions, reject a result of the wrong length. -/
def deltaApplyBytes (d : DeltaObj) (data : List Nat) :
    Except DeltaErr (List Nat) :=
  if data.length ≠ d.baseLen then .error .errApply
  else
    let res := opsApply data d.ops
    if res.length ≠ d.resultLen then .error .errApply
    else .ok res

/-- The masked-byte loops of the copy-instruction parser: for each of
`count` iterations, consume one byte when the low opcode bit is set and
or it into the accumulator at byte position `i`, shifting the opcode right
each time.  Returns the value, the shifted opcode and the number of bytes
consumed. -/
def readMaskedAux (count opc i acc : Nat) (bs : List Nat) :
    Except DeltaErr (Nat × Nat × Nat) :=
  match count with
  | 0 => .ok (acc, opc, 0)
  | count2 + 1 =>
    if opc % 2 = 1 then
      match bs with
      | [] => .error .eof
      | c :: rest =>
        match readMaskedAux count2 (opc / 2) (i + 1)
            (acc ||| (c % 256) <<< (i * 8)) rest with
        | .ok (v, o, n) => .ok (v, o, n + 1)
        | .error e => .error e
    else readMaskedAux count2 (opc / 2) (i + 1) acc bs

/-- The instruction loop of `delta.Unmarshal`: a high bit of zero is an
insert whose length is the opcode byte itself (length zero included — the
reserved `0x00` opcode is accepted as an empty insert); a high bit of one
is a copy with 4 offset-mask bits and 3 length-mask bits, a decoded length
of zero meaning 65536. -/
def deltaReadOps (bs : List Nat) : Except DeltaErr (List DeltaOp) :=
  match bs with
  | [] => .ok []
  | opcode :: rest =>
    let op := opcode % 256
    if op < 128 then
      if rest.length < op then .error .eof
      else
        match deltaReadOps (rest.drop op) with
        | .ok ops => .ok (.insert (rest.take op) :: ops)
        | .error e => .error e
    else
      match readMaskedAux 4 op 0 0 rest with
      | .error e => .error e
      | .ok (off, op4, n1) =>
        match readMaskedAux 3 op4 0 0 (rest.drop n1) with
        | .error e => .error e
        | .ok (len0, _, n2) =>
          match deltaReadOps ((rest.drop n1).drop n2) with
          | .ok ops =>
            .ok (.copy off (if len0 = 0 then 65536 else len0) :: ops)
          | .error e => .error e
termination_by bs.length
decreasing_by
  · simp
    omega
  · simp
    omega

/-- `delta.Unmarshal`: the two length varints followed by the instruction
stream. -/
def deltaUnmarshal (data : List Nat) : Except DeltaErr DeltaObj :=
  match readLE data with
  | .error .eof => .error .eof
  | .error .overflow => .error .varintOverflow
  | .ok (baseLen, rest1) =>
    match readLE rest1 with
    | .error .eof => .error .eof
    | .error .overflow => .error .varintOverflow
    | .ok (resultLen, rest2) =>
      match deltaReadOps rest2 with
      | .ok ops => .ok (DeltaObj.mk baseLen resultLen ops)
      | .error e => .error e

/-! ## Binary unmarshaling (`object.Unmarshal` and `Tree.UnmarshalBinary`)

Just enough of the `fmt` scanning machinery to decode the canonical
headers and tree bodies produced by the marshalers above: a
whitespace-delimited token (`ss.Token(true, nil)` in `Type.Scan`),
decimal and octal number verbs, and the `filename` token that stops at
NUL, LF and slash.  `object.New` allocates a `Tree` as `new(Tree)`, a
pointer to a nil map; `Tree.UnmarshalBinary` takes the map by value and
assigns into it, so the receiver is modeled as an `Option TreeData`
(`none` for the nil map) and the Go run-time panic "assignment to entry
in nil map" becomes the `panicNilMap` error.  The model returns the
receiver's final contents where Go mutates it in place. -/

inductive UnmarshalErr where
  | scanErr
  | typeErr
  | typeMismatch
  | lengthMismatch
  | shortRead
  | panicNilMap
  | fuelOut
deriving DecidableEq

/-- `unicode.IsSpace` on the ASCII bytes `fmt` skips. -/
def isSpaceByte (b : Nat) : Bool :=
  b == 32 || b == 9 || b == 10 || b == 11 || b == 12 || b == 13

/-- `ss.Token(true, nil)`: skip leading whitespace, take the maximal
non-whitespace run. -/
def scanToken (data : List Nat) : List Nat × List Nat :=
  let d := data.dropWhile (fun b => isSpaceByte b)
  (d.takeWhile (fun b => !isSpaceByte b), d.dropWhile (fun b => !isSpaceByte b))

/-- `Type.Scan`'s word table; an unrecognized word is a `TypeError`. -/
def typeFromName (tok : List Nat) : Except UnmarshalErr ObjType :=
  if tok = str "commit" then .ok .commit
  else if tok = str "tree" then .ok .tree
  else if tok = str "blob" then .ok .blob
  else if tok = str "tag" then .ok .tag
  else .error .typeErr

/-- The `d` verb on the marshaler's output: skip spaces, read at least
one decimal digit. -/
def scanDecimal (data : List Nat) : Except UnmarshalErr (Nat × List Nat) :=
  let d := data.dropWhile (fun b => isSpaceByte b)
  let ds := d.takeWhile (fun b => decide (48 ≤ b ∧ b ≤ 57))
  if ds = [] then .error .scanErr
  else .ok (ds.foldl (fun a b => a * 10 + (b - 48)) 0, d.drop ds.length)

/-- The `o` verb: skip spaces, read at least one octal digit. -/
def scanOctal (data : List Nat) : Except UnmarshalErr (Nat × List Nat) :=
  let d := data.dropWhile (fun b => isSpaceByte b)
  let ds := d.takeWhile (fun b => decide (48 ≤ b ∧ b ≤ 55))
  if ds = [] then .error .scanErr
  else .ok (ds.foldl (fun a b => a * 8 + (b - 48)) 0, d.drop ds.length)

/-- A literal NUL byte in a scan format. -/
def expectNul : List Nat → Except UnmarshalErr (List Nat)
  | 0 :: rest => .ok rest
  | _ => .error .scanErr

/-- The header scan of `object.Unmarshal` and `stripHeader`:
`Fscanf(r, s-verb space d-verb NUL, &objType, &length)`. -/
def scanHeader (data : List Nat) :
    Except UnmarshalErr (ObjType × Nat × List Nat) :=
  let p := scanToken data
  if p.1 = [] then .error .scanErr
  else
    match typeFromName p.1 with
    | .error e => .error e
    | .ok ty =>
      match scanDecimal p.2 with
      | .error e => .error e
      | .ok (len, r2) =>
        match expectNul r2 with
        | .error e => .error e
        | .ok r3 => .ok (ty, len, r3)

/-- `stripHeader`: reject a non-standard expected type, scan the header,
require the recorded type to match and the recorded length to equal the
remaining byte count. -/
def stripHeader (ty : ObjType) (data : List Nat) :
    Except UnmarshalErr (List Nat) :=
  if typeName ty = [] then .error .typeErr
  else
    match scanHeader data with
    | .error e => .error e
    | .ok (ty2, len, body) =>
      if ty2 ≠ ty then .error .typeMismatch
      else if len ≠ body.length then .error .lengthMismatch
      else .ok body

/-- One tree entry scan, `Fscanf(buf, o-verb space s-verb NUL, ...)`
followed by `io.ReadFull` of the 20 id bytes: octal mode, spaces, a
`filename` token (maximal run free of NUL, LF and slash), a literal NUL,
then the id. -/
def scanTreeEntry (data : List Nat) :
    Except UnmarshalErr ((List Nat × TreeInfo) × List Nat) :=
  match scanOctal data with
  | .error e => .error e
  | .ok (mode, r1) =>
    let r2 := r1.dropWhile (fun b => b == 32)
    let name := r2.takeWhile (fun b => !(b == 0 || b == 10 || b == 47))
    match expectNul (r2.drop name.length) with
    | .error e => .error e
    | .ok r4 =>
      if r4.length < 20 then .error .shortRead
      else .ok ((name, TreeInfo.mk mode (r4.take 20)), r4.drop 20)

/-- Go map assignment `t[name] = ti` on a non-nil map: overwrite the
entry if the key is present, append it otherwise. -/
def setTreeEntry (m : TreeData) (name : List Nat) (ti : TreeInfo) :
    TreeData :=
  if (m.lookup name).isSome then
    m.map (fun p => if p.1 == name then (p.1, ti) else p)
  else m ++ [(name, ti)]

/-- The `for buf.Len() > 0` loop of `Tree.UnmarshalBinary`.  Reaching
the assignment with a nil receiver is the Go panic.  Each parsed entry
consumes at least one byte, so fuel equal to the body length always
suffices; the fuel case is unreachable then. -/
def treeEntriesLoop (fuel : Nat) (t : Option TreeData) (data : List Nat) :
    Except UnmarshalErr TreeData :=
  match fuel, data with
  | _, [] => .ok (t.getD [])
  | 0, _ => .error .fuelOut
  | fuel + 1, data =>
    match scanTreeEntry data with
    | .error e => .error e
    | .ok (entry, rest) =>
      match t with
      | none => .error .panicNilMap
      | some m => treeEntriesLoop fuel (some (setTreeEntry m entry.1 entry.2)) rest

/-- `Tree.UnmarshalBinary`, the receiver made explicit: `none` is the
nil map that `object.New`'s `new(Tree)` yields inside
`object.Unmarshal`. -/
def treeUnmarshalBinary (t : Option TreeData) (data : List Nat) :
    Except UnmarshalErr TreeData :=
  match stripHeader .tree data with
  | .error e => .error e
  | .ok body => treeEntriesLoop body.length t body

/-- A one-entry tree: a single blob named `a`. -/
def c1TreeData : TreeData :=
  [(str "a", TreeInfo.mk modeBlob (List.replicate 20 5))]

/-! ## Upload-pack negotiation (`protocol/upload-pack.go`)

The negotiation loop of `UploadPack` in single-ack mode (the client did
not request `multi_ack_detailed`, so the `caps["multi_ack_detailed"]`
block is skipped and the capability reads `false` in the ACK condition).
The pkt-line plumbing is abstracted to its parsed form: the client input
is a list of have-rounds, each a list of have ids together with the
`readHaveLines` terminator (`true` for "done", which surfaces as
`io.EOF`; `false` for a flush-pkt, which surfaces as a `nil` error).
The `want` set, the `have` map and the `end` slice are association
lists, and `repository.Walk`'s stack is a list with its head as the top:
`Walk` pops the last pushed id first, so pushing the references of an
object prepends their reversal. -/

/-- A status line of the negotiation: `ACK <id>\n` or `NAK\n`. -/
inductive AckLine where
  | ack (id : ID)
  | nak
deriving DecidableEq

/-- Negotiation failure: a repository error surfaced by the walk
callback, or exhaustion of the recursion fuel (the Go loop has no such
bound; enough fuel makes the model agree with it). -/
inductive NegErr where
  | repoErr (e : RepoErr)
  | outOfFuel
deriving DecidableEq

/-- `have[id] = true`: mark an id of the have map as common. -/
def markCommon (h : List (ID × Bool)) (id : ID) : List (ID × Bool) :=
  h.map (fun p => if p.1 == id then (p.1, true) else p)

/-- One `repository.Walk(repo, []object.ID{wantID}, nil, ...)` call with
the `UploadPack` callback: a common object deletes `wantID` from the
want set, is marked common, is appended to `end` and prunes the walk;
otherwise commits and tags are expanded and trees and blobs prune the
walk.  Returns the updated have map, end list and want set. -/
def negWalk (repo : Repo) (wantID : ID) :
    Nat → List ID → List ID → List (ID × Bool) → List ID → List ID →
      Except NegErr (List (ID × Bool) × List ID × List ID)
  | 0, _, _, _, _, _ => .error .outOfFuel
  | _ + 1, _, [], haveM, endl, want => .ok (haveM, endl, want)
  | fuel + 1, visited, id :: rest, haveM, endl, want =>
    if id ∈ visited then
      negWalk repo wantID fuel visited rest haveM endl want
    else
      match getObject repo id with
      | .error e => .error (.repoErr e)
      | .ok o =>
        if (haveM.lookup id).isSome then
          negWalk repo wantID fuel (id :: visited) rest
            (markCommon haveM id) (endl ++ [id])
            (want.filter (fun w => !(w == wantID)))
        else
          match o with
          | .commit _ _ _ _ _ =>
            negWalk repo wantID fuel (id :: visited)
              ((objRefs o).reverse ++ rest) haveM endl want
          | .tag _ _ _ _ _ =>
            negWalk repo wantID fuel (id :: visited)
              ((objRefs o).reverse ++ rest) haveM endl want
          | _ =>
            negWalk repo wantID fuel (id :: visited) rest haveM endl want

/-- `for wantID := range want`: one walk per want id of the round's
snapshot, skipping ids deleted by an earlier walk of the same round. -/
def negWalkAll (repo : Repo) (fuel : Nat) :
    List ID → List (ID × Bool) → List ID → List ID →
      Except NegErr (List (ID × Bool) × List ID × List ID)
  | [], haveM, endl, want => .ok (haveM, endl, want)
  | w :: ws, haveM, endl, want =>
    if w ∈ want then
      match negWalk repo w fuel [] [w] haveM endl want with
      | .error e => .error e
      | .ok (haveM2, endl2, want2) =>
        negWalkAll repo fuel ws haveM2 endl2 want2
    else
      negWalkAll repo fuel ws haveM endl want

/-- The negotiation loop of `UploadPack` in single-ack mode.  Each round
reads its have block (`readHaveLines` yields the ids with value `false`
and `io.EOF` exactly for a "done" terminator), walks the repository from
every remaining want, and emits one status line: `ACK end[len(end)-1]`
when `end` is nonempty and the round ended in a flush-pkt
(`len(end) > 0 && (err == io.EOF) == false`), else `NAK`; a "done"
round breaks the loop after its line. -/
def uploadPackSingleAck (repo : Repo) (fuel : Nat) :
    List ID → List (List ID × Bool) → List ID →
      Except NegErr (List AckLine)
  | _, [], _ => .ok []
  | want, (haves, done) :: rest, endl =>
    match negWalkAll repo fuel want (haves.map (fun h => (h, false)))
        endl want with
    | .error e => .error e
    | .ok (_, endl2, want2) =>
      let line :=
        if endl2 ≠ [] ∧ done = false then
          AckLine.ack (endl2.getLastD zeroID)
        else AckLine.nak
      if done then .ok [line]
      else
        match uploadPackSingleAck repo fuel want2 rest endl2 with
        | .error e => .error e
        | .ok more => .ok (line :: more)

/-- A three-object repository for exercising the negotiation: an empty
tree, a root commit `C1` on it, and a child commit `C2` of `C1`. -/
def c6Tid : ID := List.replicate 20 3

def c6C1 : ID := List.replicate 20 1

def c6C2 : ID := List.replicate 20 2

def c6Sig : SigData := SigData.mk (str "a") (str "a") 0 0

def c6Repo : Repo :=
  Repo.mk
    [(c6Tid, .tree []),
     (c6C1, .commit c6Tid [] c6Sig c6Sig []),
     (c6C2, .commit c6Tid [c6C1] c6Sig c6Sig [])]
    []

/-! ## The emit phase of upload-pack (`repository.Walk`)

After negotiation, `UploadPack` collects the objects to pack with
`repository.Walk(repo, start, end, ...)`: `start` holds the wanted ids
and `end` the common ids recorded during negotiation.  `Walk` seeds its
visited set with `end`, treats `pending` as a stack popped from the Go
slice's tail (modeled as a list whose head is the top, so the initial
stack is `start.reverse` and an object's references are pushed
reversed), skips already-visited pops, and otherwise visits the object —
the packing callback records it — and pushes its references.  The Go
loop terminates because each iteration either shrinks the stack or
visits a previously unvisited repository object; the fuel argument
mirrors that through the explicit potential `walkPotential`, which the
driver `emitObjects` supplies, making fuel exhaustion unreachable.
(A tree's entries are pushed in the model's entry-list order where Go
iterates the map in unspecified order; no statement below depends on the
order of siblings.) -/

def emitWalk (repo : Repo) :
    Nat → List ID → List ID → List ID → Except NegErr (List ID)
  | 0, _, [], emitted => .ok emitted
  | 0, _, _ :: _, _ => .error .outOfFuel
  | _ + 1, _, [], emitted => .ok emitted
  | fuel + 1, visited, id :: rest, emitted =>
    if id ∈ visited then emitWalk repo fuel visited rest emitted
    else
      match getObject repo id with
      | .error e => .error (.repoErr e)
      | .ok o =>
        emitWalk repo fuel (id :: visited) ((objRefs o).reverse ++ rest)
          (emitted ++ [id])

/-- The termination potential of `repository.Walk`: the stack size plus,
for every repository entry not yet visited, one plus its reference
count. -/
def walkPotential (repo : Repo) (visited pending : List ID) : Nat :=
  pending.length +
    ((repo.objects.filter (fun p => !decide (p.1 ∈ visited))).map
      (fun p => 1 + (objRefs p.2).length)).sum

/-- The emit phase: `repository.Walk(repo, start, end, append)`. -/
def emitObjects (repo : Repo) (start endIDs : List ID) :
    Except NegErr (List ID) :=
  emitWalk repo (walkPotential repo endIDs start.reverse) endIDs
    start.reverse []

/-- The claim's `reach`: reflexive-transitive closure of the
object-references-object relation (commit to tree and parents, tree to
entry targets, tag to target, blob to nothing). -/
inductive Reaches (repo : Repo) : ID → ID → Prop where
  | refl (id : ID) : Reaches repo id id
  | tail {a b c : ID} {o : Obj} : Reaches repo a b →
      getObject repo b = .ok o → c ∈ objRefs o → Reaches repo a c

/-- Reachability along paths every node of which, endpoints included,
avoids `avoid`: the part of the graph `repository.Walk` explores when
seeded with `avoid` as its `end` list. -/
inductive ReachesAvoid (repo : Repo) (avoid : List ID) :
    ID → ID → Prop where
  | refl (id : ID) : id ∉ avoid → ReachesAvoid repo avoid id id
  | tail {a b c : ID} {o : Obj} : ReachesAvoid repo avoid a b →
      getObject repo b = .ok o → c ∈ objRefs o → c ∉ avoid →
      ReachesAvoid repo avoid a c

/-- The loop invariant of `repository.Walk` in the emit phase: the
visited set is exactly the avoided ids plus the emitted ones; the
emitted list has no duplicates; every emitted id — and every pending id
outside `avoid` — is reachable from a start id along an avoiding path;
the references of every emitted object are visited or still pending, as
is every start id; and every pending id is avoided or present in the
repository. -/
def WalkInv (repo : Repo) (avoid start visited pending emitted : List ID) :
    Prop :=
  (∀ x, x ∈ visited ↔ x ∈ avoid ∨ x ∈ emitted) ∧
  emitted.Nodup ∧
  (∀ x ∈ emitted, ∃ s ∈ start, ReachesAvoid repo avoid s x) ∧
  (∀ x ∈ pending, x ∉ avoid → ∃ s ∈ start, ReachesAvoid repo avoid s x) ∧
  (∀ e ∈ emitted, ∀ o, getObject repo e = .ok o →
    ∀ r ∈ objRefs o, r ∈ visited ∨ r ∈ pending) ∧
  (∀ s ∈ start, s ∈ visited ∨ s ∈ pending) ∧
  (∀ x ∈ pending, x ∈ avoid ∨ (repo.objects.lookup x).isSome)

/-! ## End of definitions; theorems follow. -/

/-! ### Arithmetic helper lemmas -/

/-- Bitwise-or with a left-shifted value coincides with addition when the
unshifted operand fits below the shift amount. -/
theorem lor_shiftLeft_eq_add (s a b : Nat) (h : a < 2 ^ s) :
    a ||| b <<< s = a + b * 2 ^ s := by
  induction s generalizing a b with
  | zero =>
    interval_cases a
    simp [Nat.shiftLeft_eq]
  | succ s ih =>
    have hq : a / 2 < 2 ^ s := by
      have := Nat.pow_succ 2 s ▸ h
      omega
    have hb : b <<< (s + 1) = Nat.bit false (b <<< s) := by
      simp [Nat.bit_val, Nat.shiftLeft_eq, Nat.pow_succ]
      ring
    have ha : a = Nat.bit a.bodd a.div2 := (Nat.bit_decomp a).symm
    rw [hb]
    conv_lhs => rw [ha]
    rw [Nat.lor_bit]
    simp only [Nat.div2_val] at *
    rw [Nat.bit_val, ih _ b hq]
    have hd := Nat.bit_decomp a
    rw [Nat.bit_val] at hd
    simp only [Nat.div2_val, Bool.or_false] at hd
    have hm : b * 2 ^ (s + 1) = 2 * (b * 2 ^ s) := by rw [Nat.pow_succ]; ring
    rw [hm]
    cases hab : a.bodd <;> simp [hab] at hd ⊢ <;> omega

/-- Variant of `lor_shiftLeft_eq_add` with the multiplication spelled out. -/
theorem lor_mul_pow_eq_add (s a b : Nat) (h : a < 2 ^ s) :
    a ||| b * 2 ^ s = a + b * 2 ^ s := by
  have := lor_shiftLeft_eq_add s a b h
  rwa [Nat.shiftLeft_eq] at this

/-- Masking with 15 is reduction mod 16. -/
theorem and_fifteen_eq_mod (m : Nat) : m &&& 15 = m % 16 :=
  Nat.and_pow_two_sub_one_eq_mod m 4

/-! ### pkt-line framing: claim C7 -/

theorem hexDigitVal_lt (c : Nat) : GitScm.hexDigitVal c < 16 := by
  unfold GitScm.hexDigitVal
  split_ifs with h1 h2 h3
  · obtain ⟨h1a, h1b⟩ := h1
    omega
  · obtain ⟨h2a, h2b⟩ := h2
    omega
  · obtain ⟨h3a, h3b⟩ := h3
    omega
  · omega

/-- The four length nibbles accumulate to the base-16 value of the digits. -/
theorem pktLineLenVal_eq (a b c d : Nat) :
    GitScm.pktLineLenVal a b c d =
      ((GitScm.hexDigitVal a * 16 + GitScm.hexDigitVal b) * 16 +
        GitScm.hexDigitVal c) * 16 + GitScm.hexDigitVal d := by
  have ha := hexDigitVal_lt a
  have hb := hexDigitVal_lt b
  have hc := hexDigitVal_lt c
  have hd := hexDigitVal_lt d
  unfold GitScm.pktLineLenVal
  set w := GitScm.hexDigitVal a
  set x := GitScm.hexDigitVal b
  set y := GitScm.hexDigitVal c
  set z := GitScm.hexDigitVal d
  simp only [Nat.shiftLeft_eq]
  have e1 : w * 2 ^ 12 ||| x * 2 ^ 8 = x * 2 ^ 8 + w * 2 ^ 12 := by
    rw [Nat.lor_comm]
    exact lor_mul_pow_eq_add 12 (x * 2 ^ 8) w (by norm_num; omega)
  rw [e1]
  have e2 : x * 2 ^ 8 + w * 2 ^ 12 = (x * 2 ^ 4 + w * 2 ^ 8) * 2 ^ 4 := by ring
  have e3 : x * 2 ^ 8 + w * 2 ^ 12 ||| y * 2 ^ 4 =
      y * 2 ^ 4 + (x * 2 ^ 4 + w * 2 ^ 8) * 2 ^ 4 := by
    rw [Nat.lor_comm, e2]
    have e2' : (x * 2 ^ 4 + w * 2 ^ 8) * 2 ^ 4 = (x + w * 2 ^ 4) * 2 ^ 8 := by ring
    rw [e2']
    exact lor_mul_pow_eq_add 8 (y * 2 ^ 4) (x + w * 2 ^ 4) (by norm_num; omega)
  rw [e3]
  have e4 : y * 2 ^ 4 + (x * 2 ^ 4 + w * 2 ^ 8) * 2 ^ 4 =
      (y + (x * 2 ^ 4 + w * 2 ^ 8)) * 2 ^ 4 := by ring
  rw [e4, Nat.lor_comm]
  rw [lor_mul_pow_eq_add 4 z (y + (x * 2 ^ 4 + w * 2 ^ 8)) (by norm_num; omega)]
  ring

/-- Characterization of `pktReadLine` on a stream with at least four bytes:
the guards reduce to plain natural-number comparisons on the parsed value. -/
theorem pktReadLine_char (a b c d : Nat) (rest : List Nat) :
    GitScm.pktReadLine (a :: b :: c :: d :: rest) =
      if GitScm.pktLineLenVal a b c d < 4 then .flushEOF
      else if rest.length < GitScm.pktLineLenVal a b c d - 4 then
        .errUnexpectedEOF rest
      else .line (rest.take (GitScm.pktLineLenVal a b c d - 4)) := by
  show (if (GitScm.pktLineLenVal a b c d : Int) - 4 < 0 then _ else _) = _
  by_cases h : GitScm.pktLineLenVal a b c d < 4
  · rw [if_pos (by omega), if_pos h]
  · rw [if_neg (by omega), if_neg h]

/-- Claim C7, counterexample: the record `"0003"` has a length field outside
`{0} ∪ {4..65524}`, which the claim says is a format error with the flush
sentinel returned exactly for `0000`; the reader instead parks at the flush
sentinel (`"", io.EOF`), performing no validation at all. -/
theorem c7_counterexample :
    GitScm.pktReadLine (GitScm.str "0003") = .flushEOF ∧
      GitScm.str "0003" ≠ GitScm.str "0000" := by
  constructor
  · rfl
  · decide

/-- Claim C7, amended: the pkt-line reader validates nothing.  Any record
whose four-byte length field parses (non-hex bytes contributing zero) to a
value below 4 — not just `0000` — is treated as the flush sentinel; any
larger value up to `ffff` is accepted without a maximum-length check, and the
only errors are short reads of the underlying stream.  Dually, a payload of
at most 65520 bytes framed by the writer is read back exactly. -/
theorem c7_amended :
    (∀ a b c d rest,
      GitScm.pktReadLine (a :: b :: c :: d :: rest) =
        if GitScm.pktLineLenVal a b c d < 4 then .flushEOF
        else if rest.length < GitScm.pktLineLenVal a b c d - 4 then
          .errUnexpectedEOF rest
        else .line (rest.take (GitScm.pktLineLenVal a b c d - 4))) ∧
    (∀ p rest w, p.length ≤ GitScm.maxPayloadLen →
      GitScm.pktWriteLine p = .ok w →
      GitScm.pktReadLine (w ++ rest) = .line p) := by
  refine ⟨pktReadLine_char, ?_⟩
  · intro p rest w hlen hw
    rw [GitScm.pktWriteLine, if_neg (by omega)] at hw
    injection hw with hw
    subst hw
    have hy : p.length + 4 < 65536 := by
      have := hlen
      unfold GitScm.maxPayloadLen at this
      omega
    have hval : GitScm.pktLineLenVal
        (GitScm.pktHexDigits.getD ((p.length + 4) >>> 12 &&& 15) 0)
        (GitScm.pktHexDigits.getD ((p.length + 4) >>> 8 &&& 15) 0)
        (GitScm.pktHexDigits.getD ((p.length + 4) >>> 4 &&& 15) 0)
        (GitScm.pktHexDigits.getD ((p.length + 4) >>> 0 &&& 15) 0) =
        p.length + 4 := by
      have hdig : ∀ n, n < 16 →
          GitScm.hexDigitVal (GitScm.pktHexDigits.getD n 0) = n := by decide
      rw [pktLineLenVal_eq]
      rw [hdig _ (by rw [and_fifteen_eq_mod]; omega),
          hdig _ (by rw [and_fifteen_eq_mod]; omega),
          hdig _ (by rw [and_fifteen_eq_mod]; omega),
          hdig _ (by rw [and_fifteen_eq_mod]; omega)]
      simp only [and_fifteen_eq_mod, Nat.shiftRight_eq_div_pow]
      norm_num
      omega
    show GitScm.pktReadLine (_ :: _ :: _ :: _ :: (p ++ rest)) = _
    rw [pktReadLine_char, hval]
    rw [if_neg (by omega), if_neg (by simp)]
    have h4 : p.length + 4 - 4 = p.length := by omega
    rw [h4]
    rw [List.take_left p rest]

/-- Witness for `c7_amended` at a concrete payload. -/
theorem c7_witness :
    GitScm.pktReadLine (GitScm.str "0006hi" ++ []) =
      .line (GitScm.str "hi") :=
  c7_amended.2 (GitScm.str "hi") [] (GitScm.str "0006hi") (by decide)
    (by rfl)

/-! ### Variable-length integers: claim C8 -/

theorem and127_eq_mod (m : Nat) : m &&& 127 = m % 128 := by
  have := Nat.and_pow_two_sub_one_eq_mod m 7
  norm_num at this
  exact this

theorem mod256_lor128 (x : Nat) : x % 256 ||| 128 = x % 128 + 128 := by
  have hsplit : x % 256 = x % 128 ∨ x % 256 = x % 128 + 128 := by omega
  have hlt : x % 128 < 128 := Nat.mod_lt _ (by norm_num)
  have hbase : x % 128 ||| 128 = x % 128 + 128 := by
    have := lor_mul_pow_eq_add 7 (x % 128) 1 (by norm_num; omega)
    norm_num at this
    exact this
  rcases hsplit with h | h
  · rw [h, hbase]
  · rw [h, ← hbase, Nat.lor_assoc]
    have h128 : (128 : Nat) ||| 128 = 128 := by decide
    rw [h128, hbase]

/-- A byte value of the form `r + 128` with `r < 128` has the continuation
bit. -/
theorem and128_of_add (r : Nat) (h : r < 128) : (r + 128) % 256 &&& 128 = 128 := by
  have h1 : (r + 128) % 256 = r + 128 := Nat.mod_eq_of_lt (by omega)
  rw [h1]
  have h2 : (r + 128) &&& 128 = ((r + 128).testBit 7).toNat * 128 := by
    have := Nat.and_two_pow (r + 128) 7
    norm_num at this
    exact this
  rw [h2]
  have h3 : (r + 128).testBit 7 = true := by
    rw [Nat.testBit_to_div_mod]
    norm_num
    omega
  rw [h3]
  norm_num

/-- A byte value below 128 does not have the continuation bit. -/
theorem and128_of_lt (r : Nat) (h : r < 128) : r % 256 &&& 128 = 0 := by
  have h1 : r % 256 = r := Nat.mod_eq_of_lt (by omega)
  rw [h1]
  have h2 : r &&& 128 = (r.testBit 7).toNat * 128 := by
    have := Nat.and_two_pow r 7
    norm_num at this
    exact this
  rw [h2, Nat.testBit_eq_false_of_lt (by norm_num; omega)]
  norm_num

/-- Step equation of the little-endian decoder loop on a nonempty stream. -/
theorem readLEAux_cons (acc s i b : Nat) (rest : List Nat) :
    GitScm.readLEAux acc s i (b :: rest) =
      if b % 256 < 128 then
        if i > 9 ∨ (i = 9 ∧ b % 256 > 1) then .error .overflow
        else .ok (acc ||| ((b % 256) <<< s) % 2 ^ 64, rest)
      else GitScm.readLEAux (acc ||| ((b % 256 &&& 127) <<< s) % 2 ^ 64)
        (s + 7) (i + 1) rest := rfl

/-- Core roundtrip lemma for the little-endian decoder: in loop state `i`
with a small accumulator, decoding the encoding of a small-enough `x` adds
`x` at position `7*i` and leaves the rest of the stream untouched. -/
theorem readLE_writeLE_aux :
    ∀ x i acc rest, i ≤ 9 → x < 2 ^ (64 - 7 * i) → acc < 2 ^ (7 * i) →
      GitScm.readLEAux acc (7 * i) i (GitScm.writeLE x ++ rest) =
        .ok (acc + x * 2 ^ (7 * i), rest) := by
  intro x
  induction x using Nat.strong_induction_on with
  | _ x ih =>
    intro i acc rest hi hx hacc
    by_cases h128 : x < 128
    · rw [GitScm.writeLE, if_pos h128]
      show GitScm.readLEAux acc (7 * i) i (x :: rest) = _
      rw [readLEAux_cons]
      have hx256 : x % 256 = x := Nat.mod_eq_of_lt (by omega)
      rw [hx256, if_pos h128, if_neg ?hterm]
      case hterm =>
        rintro (h9 | ⟨h9, hb⟩)
        · omega
        · subst h9
          have : (64 : Nat) - 7 * 9 = 1 := by norm_num
          rw [this] at hx
          omega
      have hpow : 2 ^ (64 - 7 * i) * 2 ^ (7 * i) = 2 ^ 64 := by
        rw [← pow_add]
        congr 1
        omega
      have hshift : x <<< (7 * i) < 2 ^ 64 := by
        rw [Nat.shiftLeft_eq]
        calc x * 2 ^ (7 * i) < 2 ^ (64 - 7 * i) * 2 ^ (7 * i) :=
              (Nat.mul_lt_mul_right (Nat.pos_pow_of_pos _ (by norm_num))).mpr hx
          _ = 2 ^ 64 := hpow
      rw [Nat.mod_eq_of_lt hshift, lor_shiftLeft_eq_add _ _ _ hacc]
    · rw [GitScm.writeLE, if_neg h128]
      show GitScm.readLEAux acc (7 * i) i
        ((x % 256 ||| 128) :: (GitScm.writeLE (x / 128) ++ rest)) = _
      have hb : x % 256 ||| 128 = x % 128 + 128 := mod256_lor128 x
      have hblt : x % 128 + 128 < 256 := by omega
      rw [readLEAux_cons, hb, Nat.mod_eq_of_lt hblt, if_neg (by omega)]
      have hi8 : i ≤ 8 := by
        by_contra hgt
        have h9 : i = 9 := by omega
        subst h9
        have : (64 : Nat) - 7 * 9 = 1 := by norm_num
        rw [this] at hx
        omega
      have hmask : (x % 128 + 128) &&& 127 = x % 128 := by
        rw [and127_eq_mod]
        omega
      rw [hmask]
      have hshift : (x % 128) <<< (7 * i) < 2 ^ 64 := by
        rw [Nat.shiftLeft_eq]
        have h1 : x % 128 < 2 ^ 7 := by norm_num; omega
        have h2 : (2 : Nat) ^ (7 * i) ≤ 2 ^ 56 :=
          Nat.pow_le_pow_right (by norm_num) (by omega)
        calc x % 128 * 2 ^ (7 * i) < 2 ^ 7 * 2 ^ (7 * i) :=
              (Nat.mul_lt_mul_right (Nat.pos_pow_of_pos _ (by norm_num))).mpr h1
          _ ≤ 2 ^ 7 * 2 ^ 56 := by
              exact Nat.mul_le_mul_left _ h2
          _ < 2 ^ 64 := by norm_num
      rw [Nat.mod_eq_of_lt hshift, lor_shiftLeft_eq_add _ _ _ hacc]
      have hstep : 7 * i + 7 = 7 * (i + 1) := by ring
      rw [hstep]
      have hrec := ih (x / 128) (by omega) (i + 1)
        (acc + x % 128 * 2 ^ (7 * i)) rest (by omega) ?hxdiv ?haccnew
      case hxdiv =>
        have : x < 2 ^ (64 - 7 * (i + 1)) * 128 := by
          have he : 2 ^ (64 - 7 * (i + 1)) * 128 = 2 ^ (64 - 7 * i) := by
            rw [(by norm_num : (128 : Nat) = 2 ^ 7), ← pow_add]
            congr 1
            omega
          rw [he]
          exact hx
        omega
      case haccnew =>
        have he : 2 ^ (7 * (i + 1)) = 2 ^ (7 * i) * 128 := by
          rw [(by ring : 7 * (i + 1) = 7 * i + 7), pow_add]
          norm_num
        have hm : x % 128 * 2 ^ (7 * i) ≤ 127 * 2 ^ (7 * i) :=
          Nat.mul_le_mul_right _ (by omega)
        rw [he]
        have hp : 0 < 2 ^ (7 * i) := Nat.pos_pow_of_pos _ (by norm_num)
        nlinarith [hacc, hm, hp]
      rw [hrec]
      congr 2
      have he : 2 ^ (7 * (i + 1)) = 2 ^ (7 * i) * 128 := by
        rw [(by ring : 7 * (i + 1) = 7 * i + 7), pow_add]
        norm_num
      rw [he]
      calc acc + x % 128 * 2 ^ (7 * i) + x / 128 * (2 ^ (7 * i) * 128)
          = acc + (x % 128 + 128 * (x / 128)) * 2 ^ (7 * i) := by ring
        _ = acc + x * 2 ^ (7 * i) := by rw [Nat.mod_add_div]

/-- Step equation of the modified big-endian decoder loop. -/
theorem readMBEAux_eq (x c : Nat) (bs : List Nat) :
    GitScm.readMBEAux x c bs =
      if c % 256 &&& 128 = 0 then .ok (x, bs)
      else if 2 ^ 57 - 1 ≤ x then .error .overflow
      else match bs with
        | [] => .error .eof
        | c2 :: rest =>
          GitScm.readMBEAux ((x + 1) <<< 7 ||| (c2 % 256 &&& 127)) c2 rest := by
  rw [GitScm.readMBEAux.eq_def]

/-- A continuation byte `byte(z)|0x80` always reads back with the
continuation bit set. -/
theorem contByte_and128 (z : Nat) : (z % 256 ||| 128) % 256 &&& 128 = 128 := by
  rw [mod256_lor128]
  exact and128_of_add (z % 128) (Nat.mod_lt _ (by norm_num))

/-- The payload of a continuation byte `byte(z)|0x80` is `z % 128`. -/
theorem contByte_payload (z : Nat) :
    (z % 256 ||| 128) % 256 &&& 127 = z % 128 := by
  rw [mod256_lor128]
  have h1 : (z % 128 + 128) % 256 = z % 128 + 128 :=
    Nat.mod_eq_of_lt (by omega)
  rw [h1, and127_eq_mod]
  omega

/-- The payload of the terminal byte `byte(x)&0x7F` is `x % 128`, and it
reads back without the continuation bit. -/
theorem lastByte_payload (x : Nat) : x % 256 &&& 127 = x % 128 := by
  rw [and127_eq_mod]
  omega

theorem lastByte_and128 (x : Nat) :
    (x % 256 &&& 127) % 256 &&& 128 = 0 := by
  rw [lastByte_payload]
  exact and128_of_lt (x % 128) (Nat.mod_lt _ (by norm_num))

/-- The decoder fold step agrees with the arithmetic
`x ↦ (x+1)*128 + payload`. -/
theorem mbe_step_eq (x c2 : Nat) :
    (x + 1) <<< 7 ||| (c2 % 256 &&& 127) = (x + 1) * 128 + c2 % 128 := by
  have hp : c2 % 256 &&& 127 = c2 % 128 := lastByte_payload c2
  rw [hp, Nat.lor_comm]
  have := lor_shiftLeft_eq_add 7 (c2 % 128) (x + 1)
    (by norm_num; exact Nat.mod_lt _ (by norm_num))
  rw [this]
  norm_num
  ring

/-- Decoding the continuation chain written for the decremented accumulator
`z` resumes the loop with accumulator exactly `z` (well below the overflow
guard whenever `z` is small enough). -/
theorem readMBE_writeMBEBytes :
    ∀ z, z ≤ 2 ^ 57 - 2 → ∀ rest,
      GitScm.readMBE (GitScm.writeMBEBytes z ++ rest) =
        GitScm.readMBEAux z (z % 256 ||| 128) rest := by
  intro z
  induction z using Nat.strong_induction_on with
  | _ z ih =>
    intro hz rest
    rw [GitScm.writeMBEBytes]
    by_cases h0 : z / 128 = 0
    · rw [if_pos h0]
      show GitScm.readMBE ((z % 256 ||| 128) :: rest) = _
      show GitScm.readMBEAux ((z % 256 ||| 128) % 256 &&& 127)
        (z % 256 ||| 128) rest = _
      rw [contByte_payload, Nat.mod_eq_of_lt (by omega)]
    · rw [if_neg h0, List.append_assoc, List.singleton_append]
      rw [ih (z / 128 - 1) (by omega) (by omega) ((z % 256 ||| 128) :: rest)]
      rw [readMBEAux_eq, if_neg (by rw [contByte_and128]; norm_num),
        if_neg (by omega)]
      show GitScm.readMBEAux
        ((z / 128 - 1 + 1) <<< 7 ||| ((z % 256 ||| 128) % 256 &&& 127))
        (z % 256 ||| 128) rest = _
      congr 1
      rw [contByte_payload]
      have h1 : z / 128 - 1 + 1 = z / 128 := by omega
      rw [h1]
      have := lor_shiftLeft_eq_add 7 (z % 128) (z / 128)
        (by norm_num; exact Nat.mod_lt _ (by norm_num))
      rw [Nat.lor_comm, this]
      norm_num
      omega

/-- Core overflow lemma for the modified big-endian decoder: folding a
well-formed remaining chain over the accumulator to a value of 64 bits or
more drives the loop into the overflow guard. -/
theorem readMBEAux_overflow :
    ∀ bs, GitScm.varintChain bs = true →
      ∀ x c rest, c % 256 &&& 128 ≠ 0 →
        2 ^ 64 ≤ bs.foldl (fun a c2 => (a + 1) * 128 + c2 % 128) x →
        GitScm.readMBEAux x c (bs ++ rest) = .error .overflow := by
  intro bs
  induction bs with
  | nil => intro h; simp [GitScm.varintChain] at h
  | cons b t iht =>
    intro hch x c rest hc hval
    cases t with
    | nil =>
      have hb : b < 128 := by simpa [GitScm.varintChain] using hch
      have hfold : [b].foldl (fun a c2 => (a + 1) * 128 + c2 % 128) x =
          (x + 1) * 128 + b % 128 := by simp
      rw [hfold] at hval
      have hx : 2 ^ 57 - 1 ≤ x := by omega
      rw [readMBEAux_eq, if_neg hc, if_pos hx]
    | cons c2 t2 =>
      have hb : (128 ≤ b ∧ b < 256) ∧ GitScm.varintChain (c2 :: t2) = true := by
        simpa [GitScm.varintChain, Bool.and_eq_true] using hch
      rw [readMBEAux_eq, if_neg hc]
      by_cases hx : 2 ^ 57 - 1 ≤ x
      · rw [if_pos hx]
      · rw [if_neg hx]
        show GitScm.readMBEAux ((x + 1) <<< 7 ||| (b % 256 &&& 127)) b
          ((c2 :: t2) ++ rest) = _
        rw [mbe_step_eq]
        apply iht hb.2 _ _ _ ?hcont ?hval2
        case hcont =>
          have hsplit : b % 256 = b := Nat.mod_eq_of_lt (by omega)
          have : b % 256 &&& 128 = 128 := by
            rw [hsplit, (by omega : b = b - 128 + 128)]
            have := and128_of_add (b - 128) (by omega)
            rwa [Nat.mod_eq_of_lt (by omega)] at this
          rw [this]
          norm_num
        case hval2 =>
          have hfold : (b :: c2 :: t2).foldl
              (fun a c2 => (a + 1) * 128 + c2 % 128) x =
              (c2 :: t2).foldl (fun a c2 => (a + 1) * 128 + c2 % 128)
                ((x + 1) * 128 + b % 128) := by simp
          rw [hfold] at hval
          exact hval

/-- A byte in `[128, 256)` keeps its continuation bit when read back. -/
theorem midByte_and128 (b : Nat) (h1 : 128 ≤ b) (h2 : b < 256) :
    b % 256 &&& 128 = 128 := by
  rw [Nat.mod_eq_of_lt h2]
  have h := and128_of_add (b - 128) (by omega)
  rw [Nat.mod_eq_of_lt (by omega)] at h
  have h3 : b - 128 + 128 = b := by omega
  rwa [h3] at h

/-- At loop index 10 and beyond, any well-formed chain terminates the
little-endian decoder with an overflow error. -/
theorem readLEAux_overflow_hi :
    ∀ bs, GitScm.varintChain bs = true →
      ∀ acc s i rest, 10 ≤ i →
        GitScm.readLEAux acc s i (bs ++ rest) = .error .overflow := by
  intro bs
  induction bs with
  | nil => intro h; simp [GitScm.varintChain] at h
  | cons b t iht =>
    intro hch acc s i rest hi
    cases t with
    | nil =>
      have hb : b < 128 := by simpa [GitScm.varintChain] using hch
      show GitScm.readLEAux acc s i (b :: rest) = _
      rw [readLEAux_cons, Nat.mod_eq_of_lt (by omega), if_pos hb,
        if_pos (by omega)]
    | cons c t2 =>
      have hb : (128 ≤ b ∧ b < 256) ∧ GitScm.varintChain (c :: t2) = true := by
        simpa [GitScm.varintChain, Bool.and_eq_true] using hch
      have hb1 := hb.1.1
      have hb2 := hb.1.2
      show GitScm.readLEAux acc s i (b :: ((c :: t2) ++ rest)) = _
      rw [readLEAux_cons, Nat.mod_eq_of_lt (by omega), if_neg (by omega)]
      exact iht hb.2 _ _ _ _ (by omega)

/-- A well-formed little-endian chain whose value needs more than 64 bits
drives the decoder to the overflow error, from any loop state `i` at which
the remaining value no longer fits. -/
theorem readLEAux_overflow :
    ∀ bs, GitScm.varintChain bs = true →
      ∀ i acc rest, 2 ^ 64 ≤ 2 ^ (7 * i) * GitScm.leChainVal bs →
        GitScm.readLEAux acc (7 * i) i (bs ++ rest) = .error .overflow := by
  intro bs
  induction bs with
  | nil => intro h; simp [GitScm.varintChain] at h
  | cons b t iht =>
    intro hch i acc rest hval
    cases t with
    | nil =>
      have hb : b < 128 := by simpa [GitScm.varintChain] using hch
      have hv : GitScm.leChainVal [b] = b := by
        simp [GitScm.leChainVal, Nat.mod_eq_of_lt hb]
      rw [hv] at hval
      show GitScm.readLEAux acc (7 * i) i (b :: rest) = _
      rw [readLEAux_cons, Nat.mod_eq_of_lt (by omega), if_pos hb,
        if_pos ?hcond]
      case hcond =>
        by_cases h10 : 10 ≤ i
        · exact Or.inl (by omega)
        · right
          have hi9 : i = 9 := by
            by_contra hne
            have hile : i ≤ 8 := by omega
            have h1 : (2 : Nat) ^ (7 * i) ≤ 2 ^ 56 :=
              Nat.pow_le_pow_right (by norm_num) (by omega)
            have h2 : 2 ^ (7 * i) * b ≤ 2 ^ 56 * 127 :=
              Nat.mul_le_mul h1 (by omega)
            have : (2 : Nat) ^ 56 * 127 < 2 ^ 64 := by norm_num
            omega
          subst hi9
          constructor
          · rfl
          · have h63 : (2 : Nat) ^ (7 * 9) = 2 ^ 63 := by norm_num
            rw [h63] at hval
            have : (2 : Nat) ^ 64 = 2 ^ 63 * 2 := by norm_num
            rw [this] at hval
            have hble : 2 ≤ b := Nat.le_of_mul_le_mul_left hval
              (Nat.pos_pow_of_pos 63 (by norm_num))
            omega
    | cons c t2 =>
      have hb : (128 ≤ b ∧ b < 256) ∧ GitScm.varintChain (c :: t2) = true := by
        simpa [GitScm.varintChain, Bool.and_eq_true] using hch
      have hb1 := hb.1.1
      have hb2 := hb.1.2
      show GitScm.readLEAux acc (7 * i) i (b :: ((c :: t2) ++ rest)) = _
      rw [readLEAux_cons, Nat.mod_eq_of_lt (by omega), if_neg (by omega)]
      have hstep : 7 * i + 7 = 7 * (i + 1) := by ring
      rw [hstep]
      by_cases h9 : 9 ≤ i
      · exact readLEAux_overflow_hi _ hb.2 _ _ _ _ (by omega)
      · apply iht hb.2 (i + 1)
        have hvb : GitScm.leChainVal (b :: c :: t2) =
            b % 128 + 128 * GitScm.leChainVal (c :: t2) := by
          simp [GitScm.leChainVal]
        rw [hvb] at hval
        have he : 2 ^ (7 * (i + 1)) = 2 ^ (7 * i) * 128 := by
          rw [(by ring : 7 * (i + 1) = 7 * i + 7), pow_add]
          norm_num
        rw [he]
        set p := (2 : Nat) ^ (7 * i) with hp
        set v := GitScm.leChainVal (c :: t2) with hv
        have hppos : 0 < p := Nat.pos_pow_of_pos _ (by norm_num)
        -- 2^64 is a multiple of 128*p, and 2^64 ≤ 127*p + 128*p*v forces
        -- 2^64 ≤ 128*p*v.
        have hmul : (128 * p) ∣ 2 ^ 64 := by
          have h7 : (128 : Nat) * 2 ^ (7 * i) = 2 ^ (7 * i + 7) := by
            have : (128 : Nat) = 2 ^ 7 := by norm_num
            rw [this, ← pow_add]
            ring_nf
          rw [hp, h7]
          exact pow_dvd_pow 2 (by omega)
        obtain ⟨q, hq⟩ := hmul
        have hq1 : 1 ≤ q := by
          rcases Nat.eq_zero_or_pos q with h0 | h1
          · rw [h0, Nat.mul_zero] at hq
            norm_num at hq
          · exact h1
        have hin : 128 * p * q ≤ p * (b % 128) + p * (128 * v) := by
          rw [← hq]
          calc 2 ^ 64 ≤ p * (b % 128 + 128 * v) := hval
            _ = p * (b % 128) + p * (128 * v) := by ring
        have hblt : b % 128 ≤ 127 := by omega
        have hqv : q ≤ v := by
          by_contra hgt
          have hvq : v ≤ q - 1 := by omega
          have : p * (b % 128) + p * (128 * v) ≤
              p * 127 + p * (128 * (q - 1)) := by
            have t1 : p * (b % 128) ≤ p * 127 := Nat.mul_le_mul_left _ hblt
            have t2 : p * (128 * v) ≤ p * (128 * (q - 1)) :=
              Nat.mul_le_mul_left _ (Nat.mul_le_mul_left _ hvq)
            omega
          have hexp : p * 127 + p * (128 * (q - 1)) < 128 * p * q := by
            have : 128 * (q - 1) = 128 * q - 128 := by omega
            nlinarith [hppos, hq1]
          omega
        calc (2 : Nat) ^ 64 = 128 * p * q := hq
          _ ≤ 128 * p * v := by
              exact Nat.mul_le_mul_left _ hqv
          _ = p * 128 * v := by ring

/-- Claim C8: both packfile varint codecs are inverted by their decoders on
every 64-bit value (with the rest of the stream untouched), and both
decoders fail with the overflow error on any well-formed chain denoting a
value of 64 bits or more. -/
theorem c8_varint_codecs :
    (∀ x rest, x < 2 ^ 64 →
      GitScm.readLE (GitScm.writeLE x ++ rest) = .ok (x, rest)) ∧
    (∀ x rest, x < 2 ^ 64 →
      GitScm.readMBE (GitScm.writeMBE x ++ rest) = .ok (x, rest)) ∧
    (∀ bs rest, GitScm.varintChain bs = true →
      2 ^ 64 ≤ GitScm.leChainVal bs →
      GitScm.readLE (bs ++ rest) = .error .overflow) ∧
    (∀ bs rest, GitScm.varintChain bs = true →
      2 ^ 64 ≤ GitScm.mbeChainVal bs →
      GitScm.readMBE (bs ++ rest) = .error .overflow) := by
  refine ⟨?le, ?mbe, ?leOver, ?mbeOver⟩
  case le =>
    intro x rest hx
    have h := readLE_writeLE_aux x 0 0 rest (by norm_num)
      (by simpa using hx) (by norm_num)
    simpa using h
  case mbe =>
    intro x rest hx
    by_cases h0 : x / 128 = 0
    · rw [GitScm.writeMBE, if_pos h0]
      show GitScm.readMBEAux ((x % 256 &&& 127) % 256 &&& 127)
        (x % 256 &&& 127) rest = _
      rw [readMBEAux_eq, if_pos (lastByte_and128 x)]
      have hp : (x % 256 &&& 127) % 256 &&& 127 = x := by
        rw [lastByte_payload (x % 256 &&& 127), lastByte_payload x]
        omega
      rw [hp]
    · rw [GitScm.writeMBE, if_neg h0, List.append_assoc,
        List.singleton_append]
      rw [readMBE_writeMBEBytes (x / 128 - 1) (by omega)
        ((x % 256 &&& 127) :: rest)]
      rw [readMBEAux_eq, if_neg (by rw [contByte_and128]; norm_num),
        if_neg (by omega)]
      show GitScm.readMBEAux
        ((x / 128 - 1 + 1) <<< 7 ||| ((x % 256 &&& 127) % 256 &&& 127))
        (x % 256 &&& 127) rest = _
      rw [mbe_step_eq]
      have hacc : (x / 128 - 1 + 1) * 128 + (x % 256 &&& 127) % 128 = x := by
        rw [lastByte_payload x]
        omega
      rw [hacc, readMBEAux_eq, if_pos (lastByte_and128 x)]
  case leOver =>
    intro bs rest hch hval
    have h := readLEAux_overflow bs hch 0 0 rest (by simpa using hval)
    simpa using h
  case mbeOver =>
    intro bs rest hch hval
    match bs with
    | [] => simp [GitScm.varintChain] at hch
    | [b] =>
      exfalso
      have : GitScm.mbeChainVal [b] = b % 128 := by
        simp [GitScm.mbeChainVal]
      rw [this] at hval
      omega
    | b :: c :: t =>
      have hb : (128 ≤ b ∧ b < 256) ∧ GitScm.varintChain (c :: t) = true := by
        simpa [GitScm.varintChain, Bool.and_eq_true] using hch
      show GitScm.readMBEAux (b % 256 &&& 127) b ((c :: t) ++ rest) = _
      apply readMBEAux_overflow (c :: t) hb.2 _ _ _ ?cont ?val
      case cont =>
        rw [midByte_and128 b hb.1.1 hb.1.2]
        norm_num
      case val =>
        have : GitScm.mbeChainVal (b :: c :: t) =
            (c :: t).foldl (fun a c2 => (a + 1) * 128 + c2 % 128) (b % 128) := by
          simp [GitScm.mbeChainVal]
        rw [this] at hval
        rw [lastByte_payload b]
        exact hval

/-- Witness for `c8_varint_codecs` at concrete values and chains. -/
theorem c8_witness :
    GitScm.readLE (GitScm.writeLE 300 ++ [7]) = .ok (300, [7]) ∧
    GitScm.readMBE (GitScm.writeMBE 300 ++ [9]) = .ok (300, [9]) ∧
    GitScm.readLE ([128, 128, 128, 128, 128, 128, 128, 128, 128, 2] ++ []) =
      .error .overflow ∧
    GitScm.readMBE
      ([255, 255, 255, 255, 255, 255, 255, 255, 255, 127] ++ []) =
      .error .overflow :=
  ⟨c8_varint_codecs.1 300 [7] (by norm_num),
   c8_varint_codecs.2.1 300 [9] (by norm_num),
   c8_varint_codecs.2.2.1 _ [] (by decide) (by decide),
   c8_varint_codecs.2.2.2 _ [] (by decide) (by decide)⟩

/-! ### The repository ref store: claim C2 -/

/-- If a lookup misses, no key in the table matches. -/
theorem lookup_none_forall {α β : Type} [BEq α] [LawfulBEq α] (a : α) :
    ∀ (l : List (α × β)), List.lookup a l = none → ∀ p ∈ l, p.1 ≠ a := by
  intro l
  induction l with
  | nil =>
    intro _ p hp
    simp at hp
  | cons q t ih =>
    obtain ⟨k, b⟩ := q
    intro h p hp
    rw [List.lookup_cons] at h
    by_cases hq : a = k
    · rw [beq_iff_eq.mpr hq] at h
      simp at h
    · have hq2 : (a == k) = false := beq_eq_false_iff_ne.mpr hq
      rw [hq2] at h
      have h2 : List.lookup a t = none := h
      rcases List.mem_cons.mp hp with he | ht
      · rw [he]
        exact fun hka => hq hka.symm
      · exact ih h2 p ht

/-- A successful lookup exhibits a member of the table. -/
theorem mem_of_lookup_some {α β : Type} [BEq α] [LawfulBEq α] (a : α) :
    ∀ (l : List (α × β)) (v : β), List.lookup a l = some v → (a, v) ∈ l := by
  intro l
  induction l with
  | nil =>
    intro v h
    simp [List.lookup] at h
  | cons q t ih =>
    obtain ⟨k, b⟩ := q
    intro v h
    rw [List.lookup_cons] at h
    by_cases hq : a = k
    · rw [beq_iff_eq.mpr hq] at h
      have hb : b = v := by simpa using h
      rw [List.mem_cons]
      left
      rw [hq, hb]
    · have hq2 : (a == k) = false := beq_eq_false_iff_ne.mpr hq
      rw [hq2] at h
      have h2 : List.lookup a t = some v := h
      exact List.mem_cons_of_mem _ (ih v h2)

/-- Claim C2, counterexample: with `oldId = 0` and `newId ≠ 0` on an absent
ref, the claim says the update creates the ref (failing only `ref-exists`
when present), but the code also demands that `newId` name an existing
object: on an empty repository the call fails with `object-not-exist`. -/
theorem c2_counterexample :
    GitScm.updateRef (GitScm.Repo.mk [] []) (GitScm.str "refs/heads/x")
        GitScm.zeroID (List.replicate 20 1) =
      .error .objectNotExist ∧
    (GitScm.Repo.mk [] []).refs.lookup (GitScm.str "refs/heads/x") = none ∧
    List.replicate 20 1 ≠ GitScm.zeroID := by
  refine ⟨by rfl, by rfl, by decide⟩

/-- Claim C2, amended: `UpdateRef` implements the five-case compare-and-set
semantics, except that creation (`oldId = 0`, `newId ≠ 0`) — like the
two-sided case — also requires `newId` to name an existing object and fails
`object-not-exist` otherwise.  Every error is returned before any mutation,
so the ref mapping is unchanged on failure (an `.error` result carries no
new state by construction).  The `hnozero` hypothesis is the evident
invariant that no stored ref maps to the zero id. -/
theorem c2_update_ref (r : GitScm.Repo) (name : List Nat)
    (oldID newID : GitScm.ID)
    (hv : GitScm.isValidRef name = true)
    (hnozero : ∀ p ∈ r.refs, p.2 ≠ GitScm.zeroID) :
    (oldID = GitScm.zeroID → newID = GitScm.zeroID →
      (r.refs.lookup name = none →
        GitScm.updateRef r name oldID newID =
          .ok (GitScm.Repo.mk r.objects (GitScm.delRef r.refs name)) ∧
        GitScm.delRef r.refs name = r.refs) ∧
      (∀ v, r.refs.lookup name = some v →
        GitScm.updateRef r name oldID newID = .error .refExist)) ∧
    (oldID = GitScm.zeroID → newID ≠ GitScm.zeroID →
      (∀ v, r.refs.lookup name = some v →
        GitScm.updateRef r name oldID newID = .error .refExist) ∧
      (r.refs.lookup name = none → r.objects.lookup newID = none →
        GitScm.updateRef r name oldID newID = .error .objectNotExist) ∧
      (r.refs.lookup name = none → (r.objects.lookup newID).isSome →
        GitScm.updateRef r name oldID newID =
          .ok (GitScm.Repo.mk r.objects (GitScm.setRef r.refs name newID)))) ∧
    (oldID ≠ GitScm.zeroID → newID = GitScm.zeroID →
      (r.refs.lookup name = none →
        GitScm.updateRef r name oldID newID = .error .refNotExist) ∧
      (∀ v, r.refs.lookup name = some v → v ≠ oldID →
        GitScm.updateRef r name oldID newID = .error .refMismatch) ∧
      (r.refs.lookup name = some oldID →
        GitScm.updateRef r name oldID newID =
          .ok (GitScm.Repo.mk r.objects (GitScm.delRef r.refs name)))) ∧
    (oldID ≠ GitScm.zeroID → newID ≠ GitScm.zeroID →
      (r.refs.lookup name = none →
        GitScm.updateRef r name oldID newID = .error .refNotExist) ∧
      (∀ v, r.refs.lookup name = some v → v ≠ oldID →
        GitScm.updateRef r name oldID newID = .error .refMismatch) ∧
      (r.refs.lookup name = some oldID → r.objects.lookup newID = none →
        GitScm.updateRef r name oldID newID = .error .objectNotExist) ∧
      (r.refs.lookup name = some oldID → (r.objects.lookup newID).isSome →
        GitScm.updateRef r name oldID newID =
          .ok (GitScm.Repo.mk r.objects (GitScm.setRef r.refs name newID)))) := by
  have hval : (!(GitScm.isValidRef name)) = false := by rw [hv]; rfl
  refine ⟨?c1, ?c2, ?c3, ?c4⟩
  case c1 =>
    intro ho hn
    subst ho hn
    constructor
    · intro hl
      constructor
      · simp [GitScm.updateRef, hval, hl]
      · rw [GitScm.delRef, List.filter_eq_self]
        intro p hp
        simp only [Bool.not_eq_true']
        exact beq_eq_false_iff_ne.mpr (lookup_none_forall name r.refs hl p hp)
    · intro v hl
      have hvne := hnozero _ (mem_of_lookup_some name r.refs _ hl)
      simp [GitScm.updateRef, hval, hl, hvne]
  case c2 =>
    intro ho hn
    subst ho
    refine ⟨?_, ?_, ?_⟩
    · intro v hl
      have hvne := hnozero _ (mem_of_lookup_some name r.refs _ hl)
      simp [GitScm.updateRef, hval, hl, hvne]
    · intro hl hobj
      simp [GitScm.updateRef, hval, hl, hobj, hn]
    · intro hl hobj
      obtain ⟨o, hl2⟩ := Option.isSome_iff_exists.mp hobj
      simp [GitScm.updateRef, hval, hl, hl2, hn]
  case c3 =>
    intro ho hn
    subst hn
    refine ⟨?_, ?_, ?_⟩
    · intro hl
      simp [GitScm.updateRef, hval, hl, Ne.symm ho]
    · intro v hl hvo
      have hvne := hnozero _ (mem_of_lookup_some name r.refs _ hl)
      simp [GitScm.updateRef, hval, hl, hvo, hvne, ho]
    · intro hl
      have hvne := hnozero _ (mem_of_lookup_some name r.refs _ hl)
      simp [GitScm.updateRef, hval, hl]
  case c4 =>
    intro ho hn
    refine ⟨?_, ?_, ?_, ?_⟩
    · intro hl
      simp [GitScm.updateRef, hval, hl, Ne.symm ho]
    · intro v hl hvo
      have hvne := hnozero _ (mem_of_lookup_some name r.refs _ hl)
      simp [GitScm.updateRef, hval, hl, hvo, hvne, ho]
    · intro hl hobj
      simp [GitScm.updateRef, hval, hl, hobj, hn]
    · intro hl hobj
      obtain ⟨o, hl2⟩ := Option.isSome_iff_exists.mp hobj
      simp [GitScm.updateRef, hval, hl, hl2, hn]

/-- Witness for `c2_update_ref`: a two-sided compare-and-set that succeeds
on a concrete repository. -/
theorem c2_witness :
    GitScm.updateRef
        (GitScm.Repo.mk [(List.replicate 20 1, GitScm.Obj.blob [])]
          [(GitScm.str "refs/heads/x", List.replicate 20 1)])
        (GitScm.str "refs/heads/x") (List.replicate 20 1)
        (List.replicate 20 1) =
      .ok (GitScm.Repo.mk [(List.replicate 20 1, GitScm.Obj.blob [])]
        (GitScm.setRef [(GitScm.str "refs/heads/x", List.replicate 20 1)]
          (GitScm.str "refs/heads/x") (List.replicate 20 1))) :=
  ((c2_update_ref
      (GitScm.Repo.mk [(List.replicate 20 1, GitScm.Obj.blob [])]
        [(GitScm.str "refs/heads/x", List.replicate 20 1)])
      (GitScm.str "refs/heads/x") (List.replicate 20 1)
      (List.replicate 20 1) (by decide) (by decide)).2.2.2
    (by decide) (by decide)).2.2.2 (by decide) (by decide)

/-! ### Tree canonical entry order: claim C9 -/

/-- Head characterization of the byte-wise order. -/
theorem lexLe_cons_iff (x y : Nat) (as bs : List Nat) :
    GitScm.lexLe (x :: as) (y :: bs) = true ↔
      x < y ∨ (x = y ∧ GitScm.lexLe as bs = true) := by
  simp only [GitScm.lexLe]
  split_ifs with h1 h2
  · simp
    omega
  · simp
    omega
  · have hxy : x = y := by omega
    simp [hxy]

theorem lexLe_trans :
    ∀ a b c, GitScm.lexLe a b = true → GitScm.lexLe b c = true →
      GitScm.lexLe a c = true := by
  intro a
  induction a with
  | nil =>
    intro b c h1 h2
    rfl
  | cons x as ih =>
    intro b c h1 h2
    cases b with
    | nil => simp [GitScm.lexLe] at h1
    | cons y bs =>
      cases c with
      | nil => simp [GitScm.lexLe] at h2
      | cons z cs =>
        rw [lexLe_cons_iff] at h1 h2 ⊢
        rcases h1 with h1 | ⟨h1e, h1r⟩
        · rcases h2 with h2 | ⟨h2e, h2r⟩
          · left
            omega
          · left
            omega
        · rcases h2 with h2 | ⟨h2e, h2r⟩
          · left
            omega
          · right
            exact ⟨by omega, ih bs cs h1r h2r⟩

theorem lexLe_total :
    ∀ a b, (GitScm.lexLe a b || GitScm.lexLe b a) = true := by
  intro a
  induction a with
  | nil =>
    intro b
    simp [GitScm.lexLe]
  | cons x as ih =>
    intro b
    cases b with
    | nil => simp [GitScm.lexLe]
    | cons y bs =>
      rcases Nat.lt_trichotomy x y with h | h | h
      · simp [lexLe_cons_iff, h]
      · have := ih bs
        rcases (Bool.or_eq_true _ _).mp this with ht | ht
        all_goals simp [lexLe_cons_iff, h, ht]
      · simp [lexLe_cons_iff, h]

/-- A map that fixes every member is the identity. -/
theorem map_eq_self_of {α : Type} (f : α → α) :
    ∀ l : List α, (∀ v ∈ l, f v = v) → l.map f = l := by
  intro l
  induction l with
  | nil => intro _; rfl
  | cons x t ih =>
    intro h
    rw [List.map_cons, h x (List.mem_cons_self x t),
      ih (fun v hv => h v (List.mem_cons_of_mem x hv))]

/-- With no duplicate keys, looking a member entry up by its own key finds
exactly that entry. -/
theorem lookup_of_nodup_mem {β : Type} :
    ∀ (t : List (List Nat × β)), (t.map Prod.fst).Nodup →
      ∀ p ∈ t, List.lookup p.1 t = some p.2 := by
  intro t
  induction t with
  | nil =>
    intro _ p hp
    simp at hp
  | cons q rest ih =>
    intro hnd p hp
    obtain ⟨k, b⟩ := q
    rw [List.map_cons, List.nodup_cons] at hnd
    rcases List.mem_cons.mp hp with he | ht
    · rw [he, List.lookup_cons]
      simp
    · rw [List.lookup_cons]
      have hne : p.1 ≠ k := by
        intro hEq
        have hmem := List.mem_map_of_mem Prod.fst ht
        rw [hEq] at hmem
        exact hnd.1 hmem
      rw [beq_eq_false_iff_ne.mpr hne]
      exact ih hnd.2 p ht

/-- Claim C9: the marshaled binary form of a tree is the concatenation of
its entries in `Names()` order, and that order is canonical - ascending
byte-wise once each directory entry is given its virtual trailing slash.
Valid trees have no duplicate filenames and no slash inside a filename. -/
theorem c9_tree_canonical_order (t : GitScm.TreeData)
    (hnodup : (t.map Prod.fst).Nodup)
    (hnoslash : ∀ p ∈ t, ¬ 47 ∈ p.1) :
    GitScm.marshalTree t =
      GitScm.prependHeader .tree
        (((GitScm.treeNames t).map (GitScm.treeEntryBytes t)).flatten) ∧
    List.Pairwise (fun a b => GitScm.lexLe a b = true)
      ((GitScm.treeNames t).map (GitScm.treeSortKey t)) := by
  constructor
  · rfl
  · have hsorted := @List.sorted_mergeSort _ GitScm.lexLe
      (fun a b c h1 h2 => lexLe_trans a b c h1 h2)
      (fun a b => lexLe_total a b)
      (t.map (fun p => if p.2.mode = GitScm.modeTree then p.1 ++ [47] else p.1))
    have hfix : ∀ v ∈ (t.map
        (fun p => if p.2.mode = GitScm.modeTree then p.1 ++ [47]
          else p.1)).mergeSort GitScm.lexLe,
        GitScm.treeSortKey t (GitScm.trimSuffixSlash v) = v := by
      intro v hv
      have hvmem : v ∈ t.map
          (fun p => if p.2.mode = GitScm.modeTree then p.1 ++ [47] else p.1) :=
        (List.mergeSort_perm _ _).mem_iff.mp hv
      obtain ⟨p, hp, hpv⟩ := List.mem_map.mp hvmem
      have hlook := lookup_of_nodup_mem t hnodup p hp
      by_cases hdir : p.2.mode = GitScm.modeTree
      · rw [if_pos hdir] at hpv
        subst hpv
        have htrim : GitScm.trimSuffixSlash (p.1 ++ [47]) = p.1 := by
          rw [GitScm.trimSuffixSlash, if_pos (by simp)]
          simp
        rw [htrim, GitScm.treeSortKey, hlook]
        rw [if_pos ?_]
        exact hdir
      · rw [if_neg hdir] at hpv
        subst hpv
        have htrim : GitScm.trimSuffixSlash p.1 = p.1 := by
          rw [GitScm.trimSuffixSlash, if_neg ?_]
          intro hsuf
          rw [List.isSuffixOf_iff_suffix] at hsuf
          exact hnoslash p hp (hsuf.subset (by simp))
        rw [htrim, GitScm.treeSortKey, hlook]
        rw [if_neg ?_]
        exact hdir
    have hmapmap : (GitScm.treeNames t).map (GitScm.treeSortKey t) =
        (t.map (fun p => if p.2.mode = GitScm.modeTree then p.1 ++ [47]
          else p.1)).mergeSort GitScm.lexLe := by
      rw [GitScm.treeNames, List.map_map]
      exact map_eq_self_of _ _ hfix
    rw [hmapmap]
    exact hsorted

/-- Witness for `c9_tree_canonical_order`: a tree with a directory `a` and
a blob `a-x`, whose canonical order puts `a-x` before `a`. -/
theorem c9_witness :
    GitScm.marshalTree
        [(GitScm.str "a", GitScm.TreeInfo.mk GitScm.modeTree
            (List.replicate 20 2)),
         (GitScm.str "a-x", GitScm.TreeInfo.mk GitScm.modeBlob
            (List.replicate 20 3))] =
      GitScm.prependHeader .tree
        (((GitScm.treeNames
            [(GitScm.str "a", GitScm.TreeInfo.mk GitScm.modeTree
                (List.replicate 20 2)),
             (GitScm.str "a-x", GitScm.TreeInfo.mk GitScm.modeBlob
                (List.replicate 20 3))]).map
          (GitScm.treeEntryBytes
            [(GitScm.str "a", GitScm.TreeInfo.mk GitScm.modeTree
                (List.replicate 20 2)),
             (GitScm.str "a-x", GitScm.TreeInfo.mk GitScm.modeBlob
                (List.replicate 20 3))])).flatten) ∧
    List.Pairwise (fun a b => GitScm.lexLe a b = true)
      ((GitScm.treeNames
          [(GitScm.str "a", GitScm.TreeInfo.mk GitScm.modeTree
              (List.replicate 20 2)),
           (GitScm.str "a-x", GitScm.TreeInfo.mk GitScm.modeBlob
              (List.replicate 20 3))]).map
        (GitScm.treeSortKey
          [(GitScm.str "a", GitScm.TreeInfo.mk GitScm.modeTree
              (List.replicate 20 2)),
           (GitScm.str "a-x", GitScm.TreeInfo.mk GitScm.modeBlob
              (List.replicate 20 3))])) :=
  c9_tree_canonical_order _ (by decide) (by decide)

/-! ### The packfile writer object count: claim C10 -/

/-- A successful write decrements the count by one and appends bytes. -/
theorem packWrite_succ (compress : List Nat → List Nat) (w : GitScm.PackWriter)
    (obj : GitScm.Obj) (hn : w.n ≠ 0)
    (hsz : (GitScm.marshalObjBody obj).length ≤ 0x1FFFFFFFFFFFFFFF) :
    GitScm.packWrite compress w obj =
      (none, GitScm.PackWriter.mk (w.n - 1)
        (w.out ++
          GitScm.writeLE
            (((GitScm.marshalObjBody obj).length.ldiff 15) <<< 3 |||
              GitScm.typeCode (GitScm.typeOf obj) <<< 4 |||
              ((GitScm.marshalObjBody obj).length &&& 15)) ++
          compress (GitScm.marshalObjBody obj))) := by
  have hhdr : GitScm.writeObjHeader (GitScm.typeOf obj)
      (GitScm.marshalObjBody obj).length =
      .ok (GitScm.writeLE
        (((GitScm.marshalObjBody obj).length.ldiff 15) <<< 3 |||
          GitScm.typeCode (GitScm.typeOf obj) <<< 4 |||
          ((GitScm.marshalObjBody obj).length &&& 15))) := by
    rw [GitScm.writeObjHeader, if_neg (by omega)]
  simp only [GitScm.packWrite, if_neg hn, hhdr]

/-- A successful first write turns the write loop into the loop on the
remaining objects. -/
theorem packWriteAll_cons_none (compress : List Nat → List Nat)
    (w : GitScm.PackWriter) (o : GitScm.Obj) (os : List GitScm.Obj)
    (w2 : GitScm.PackWriter)
    (h : GitScm.packWrite compress w o = (none, w2)) :
    GitScm.packWriteAll compress w (o :: os) =
      GitScm.packWriteAll compress w2 os := by
  rw [GitScm.packWriteAll, h]

/-- Writing as many objects as the remaining count allows succeeds and
leaves exactly the difference. -/
theorem packWriteAll_count (compress : List Nat → List Nat) :
    ∀ (objs : List GitScm.Obj) (w : GitScm.PackWriter),
      objs.length ≤ w.n →
      (∀ o ∈ objs,
        (GitScm.marshalObjBody o).length ≤ 0x1FFFFFFFFFFFFFFF) →
      (GitScm.packWriteAll compress w objs).1 = none ∧
      (GitScm.packWriteAll compress w objs).2.n = w.n - objs.length := by
  intro objs
  induction objs with
  | nil =>
    intro w _ _
    exact ⟨rfl, by simp [GitScm.packWriteAll]⟩
  | cons o os ih =>
    intro w hlen hsz
    have hn : w.n ≠ 0 := by
      have := hlen
      simp at this
      omega
    have hpw := packWrite_succ compress w o hn (hsz o (List.mem_cons_self o os))
    rw [packWriteAll_cons_none compress w o os _ hpw]
    have hlen2 : (o :: os).length = os.length + 1 := by simp
    constructor
    · exact (ih _ (by simp; omega)
        (fun o2 ho2 => hsz o2 (List.mem_cons_of_mem o ho2))).1
    · refine Eq.trans (ih _ (by simp; omega)
        (fun o2 ho2 => hsz o2 (List.mem_cons_of_mem o ho2))).2 ?_
      simp
      omega

/-- Claim C10: a writer created for `n` objects emits the header; each
successful write decrements the remaining count by one while appending
bytes, and any write attempted once the count is exhausted returns the
too-many-objects error and leaves the output byte-for-byte unchanged. -/
theorem c10_pack_writer_count (compress : List Nat → List Nat) :
    (∀ w obj, w.n = 0 →
      GitScm.packWrite compress w obj = (some .tooManyObjects, w)) ∧
    (∀ w obj, w.n ≠ 0 →
      (GitScm.marshalObjBody obj).length ≤ 0x1FFFFFFFFFFFFFFF →
      (GitScm.packWrite compress w obj).1 = none ∧
      (GitScm.packWrite compress w obj).2.n = w.n - 1 ∧
      ∃ bytes, (GitScm.packWrite compress w obj).2.out = w.out ++ bytes) ∧
    (∀ n, n < 2 ^ 32 →
      GitScm.packNewWriter n =
        .ok (GitScm.PackWriter.mk n
          (GitScm.str "PACK" ++ GitScm.be32 3 ++ GitScm.be32 n))) ∧
    (∀ w objs, objs.length = w.n →
      (∀ o ∈ objs,
        (GitScm.marshalObjBody o).length ≤ 0x1FFFFFFFFFFFFFFF) →
      (GitScm.packWriteAll compress w objs).1 = none ∧
      (GitScm.packWriteAll compress w objs).2.n = 0 ∧
      ∀ obj, GitScm.packWrite compress
          (GitScm.packWriteAll compress w objs).2 obj =
        (some .tooManyObjects, (GitScm.packWriteAll compress w objs).2)) := by
  refine ⟨?zero, ?succ, ?new, ?fill⟩
  case zero =>
    intro w obj h0
    rw [GitScm.packWrite, if_pos h0]
  case succ =>
    intro w obj hn hsz
    rw [packWrite_succ compress w obj hn hsz]
    exact ⟨rfl, rfl, _, by rw [List.append_assoc]⟩
  case new =>
    intro n hn
    rw [GitScm.packNewWriter, if_neg (by omega)]
  case fill =>
    intro w objs hlen hsz
    have h := packWriteAll_count compress objs w (by omega) hsz
    refine ⟨h.1, by rw [h.2, hlen]; omega, ?_⟩
    intro obj
    rw [GitScm.packWrite, if_pos (by rw [h.2, hlen]; omega)]

/-- Witness for `c10_pack_writer_count`: one blob through a one-object
writer, with the identity as the opaque compressor. -/
theorem c10_witness :
    (GitScm.packWriteAll id
        (GitScm.PackWriter.mk 1 []) [GitScm.Obj.blob [104, 105]]).1 = none ∧
    (GitScm.packWriteAll id
        (GitScm.PackWriter.mk 1 []) [GitScm.Obj.blob [104, 105]]).2.n = 0 ∧
    ∀ obj, GitScm.packWrite id
        (GitScm.packWriteAll id
          (GitScm.PackWriter.mk 1 []) [GitScm.Obj.blob [104, 105]]).2 obj =
      (some .tooManyObjects,
        (GitScm.packWriteAll id
          (GitScm.PackWriter.mk 1 []) [GitScm.Obj.blob [104, 105]]).2) :=
  (c10_pack_writer_count id).2.2.2 (GitScm.PackWriter.mk 1 [])
    [GitScm.Obj.blob [104, 105]] (by decide) (by decide)

/-! ### Delta application: claims C4 and C5 -/

/-- Claim C4, counterexample: a copy that reads past the end of the base
(`off 2, len 4` against a 4-byte base) is silently truncated by the
section reader; if the truncated output happens to match the declared
result length, `Apply` succeeds — here returning `st!!` — where the claim
demands the delta-does-not-apply error. -/
theorem c4_counterexample :
    GitScm.deltaApplyBytes
        (GitScm.DeltaObj.mk 4 4
          [.copy 2 4, .insert (GitScm.str "!!")]) (GitScm.str "test") =
      .ok (GitScm.str "st!!") ∧
    2 + 4 > (GitScm.str "test").length := by
  exact ⟨by rfl, by decide⟩

/-- Claim C4, amended: `Apply` fails with the delta-does-not-apply error
exactly when the declared base length differs from the actual base length
or the length of the produced target differs from the declared target
length — where copies that would read past the end of the base are
silently truncated rather than being errors.  When every copy is in
bounds, the produced target is the untruncated one: its length is the sum
of the instruction sizes, so the length check coincides with the claim's
reading. -/
theorem c4_delta_apply (d : GitScm.DeltaObj) (base : List Nat) :
    (d.baseLen ≠ base.length →
      GitScm.deltaApplyBytes d base = .error .errApply) ∧
    (d.baseLen = base.length →
      GitScm.deltaApplyBytes d base =
        if (GitScm.opsApply base d.ops).length = d.resultLen then
          .ok (GitScm.opsApply base d.ops)
        else .error .errApply) ∧
    ((∀ off len, GitScm.DeltaOp.copy off len ∈ d.ops →
        off + len ≤ base.length) →
      (GitScm.opsApply base d.ops).length =
        (d.ops.map (fun op => match op with
          | .insert bs => bs.length
          | .copy _ len => len)).sum) := by
  refine ⟨?mismatch, ?check, ?exact⟩
  case mismatch =>
    intro h
    rw [GitScm.deltaApplyBytes, if_pos (Ne.symm h)]
  case check =>
    intro h
    rw [GitScm.deltaApplyBytes, if_neg (by omega)]
    by_cases hr : (GitScm.opsApply base d.ops).length = d.resultLen
    · rw [if_pos hr]
      show (if (GitScm.opsApply base d.ops).length ≠ d.resultLen then _
        else _) = _
      rw [if_neg (by omega)]
    · rw [if_neg hr]
      show (if (GitScm.opsApply base d.ops).length ≠ d.resultLen then _
        else _) = _
      rw [if_pos hr]
  case exact =>
    obtain ⟨bl, rl, ops⟩ := d
    induction ops with
    | nil =>
      intro _
      rfl
    | cons op ops ih =>
      intro hb
      have h1 : GitScm.opsApply base (op :: ops) =
          GitScm.opApply base op ++ GitScm.opsApply base ops := by
        simp [GitScm.opsApply]
      rw [h1, List.length_append,
        ih (fun off len hm => hb off len (List.mem_cons_of_mem op hm))]
      simp only [List.map_cons, List.sum_cons]
      congr 1
      cases op with
      | insert bs => rfl
      | copy off len =>
        have hbd := hb off len (List.mem_cons_self _ _)
        simp [GitScm.opApply]
        omega

/-- Witness for `c4_delta_apply`: the specification's own example delta
(base length 4, result length 6, copy 0..4 then insert `!!`) applied to
`test`, plus a base-length mismatch and the exact-length computation. -/
theorem c4_witness :
    GitScm.deltaApplyBytes
        (GitScm.DeltaObj.mk 5 6
          [.copy 0 4, .insert (GitScm.str "!!")]) (GitScm.str "test") =
      .error .errApply ∧
    GitScm.deltaApplyBytes
        (GitScm.DeltaObj.mk 4 6
          [.copy 0 4, .insert (GitScm.str "!!")]) (GitScm.str "test") =
      (if (GitScm.opsApply (GitScm.str "test")
            [.copy 0 4, .insert (GitScm.str "!!")]).length = 6 then
        .ok (GitScm.opsApply (GitScm.str "test")
          [.copy 0 4, .insert (GitScm.str "!!")])
      else .error .errApply) ∧
    (GitScm.opsApply (GitScm.str "test")
        [GitScm.DeltaOp.copy 0 4,
         GitScm.DeltaOp.insert (GitScm.str "!!")]).length =
      ([GitScm.DeltaOp.copy 0 4,
        GitScm.DeltaOp.insert (GitScm.str "!!")].map
          (fun op => match op with
            | .insert bs => bs.length
            | .copy _ len => len)).sum :=
  ⟨(c4_delta_apply (GitScm.DeltaObj.mk 5 6
      [.copy 0 4, .insert (GitScm.str "!!")]) (GitScm.str "test")).1
      (by decide),
   (c4_delta_apply (GitScm.DeltaObj.mk 4 6
      [.copy 0 4, .insert (GitScm.str "!!")]) (GitScm.str "test")).2.1
      (by decide),
   (c4_delta_apply (GitScm.DeltaObj.mk 4 6
      [.copy 0 4, .insert (GitScm.str "!!")]) (GitScm.str "test")).2.2
      (by
        intro off len hm
        simp only [List.mem_cons, List.not_mem_nil, or_false] at hm
        rcases hm with hm | hm
        · injection hm with h1 h2
          subst h1
          subst h2
          decide
        · exact GitScm.DeltaOp.noConfusion hm)⟩

/-- Claim C5: the reserved `0x00` opcode is accepted, not rejected — the
delta body `[0, 0, 0]` (base length 0, result length 0, then opcode `0x00`)
unmarshals successfully into a zero-length insert, and the resulting delta
applies cleanly to the empty base. -/
theorem c5_zero_opcode_accepted :
    GitScm.deltaUnmarshal [0, 0, 0] =
      .ok (GitScm.DeltaObj.mk 0 0 [.insert []]) ∧
    GitScm.deltaApplyBytes (GitScm.DeltaObj.mk 0 0 [.insert []]) [] =
      .ok [] := by
  have h0 : GitScm.deltaReadOps [] = .ok [] := by
    rw [GitScm.deltaReadOps.eq_def]
  have h1 : GitScm.deltaReadOps [0] = .ok [.insert []] := by
    rw [GitScm.deltaReadOps.eq_def]
    simp [h0]
  have hr1 : GitScm.readLE [0, 0, 0] = .ok (0, [0, 0]) := by rfl
  have hr2 : GitScm.readLE [0, 0] = .ok (0, [0]) := by rfl
  refine ⟨?_, by rfl⟩
  simp [GitScm.deltaUnmarshal, hr1, hr2, h1]

/-- Claim C6: refuted on a concrete run.  In single-ack mode, with wants
`[C2]` and the client offering `C1, C2` (reverse chronological order,
flush), then an empty flush round, then "done", upload-pack emits
`ACK C2`, `ACK C2`, `NAK`: it acknowledges the last common object found
(`C2`), not the first have present in the repository (`C1`), and it
repeats the ACK on every later flush round rather than sending exactly
one. -/
theorem c6_single_ack_wrong :
    GitScm.uploadPackSingleAck GitScm.c6Repo 100 [GitScm.c6C2]
        [([GitScm.c6C1, GitScm.c6C2], false), ([], false), ([], true)]
        [] =
      .ok [.ack GitScm.c6C2, .ack GitScm.c6C2, .nak] ∧
    GitScm.AckLine.ack GitScm.c6C1 ∉
      [GitScm.AckLine.ack GitScm.c6C2, GitScm.AckLine.ack GitScm.c6C2,
       GitScm.AckLine.nak] := by
  exact ⟨by rfl, by decide⟩

/-- Claim C1: refuted for trees.  Marshaling the one-entry tree and
decoding the result the way `object.Unmarshal` does — the header scan
names type `tree`, `object.New` allocates `new(Tree)` whose map is nil,
and `Tree.UnmarshalBinary` runs on that nil receiver — reaches the map
assignment `t[name] = ti` and panics ("assignment to entry in nil map")
instead of returning the tree.  The same decode over an empty non-nil
map would have reconstructed the tree exactly, so the round-trip failure
is precisely the nil allocation. -/
theorem c1_tree_roundtrip_panics :
    GitScm.scanHeader (GitScm.marshalObj (.tree GitScm.c1TreeData)) =
      .ok (GitScm.ObjType.tree, 29, GitScm.marshalTreeBody GitScm.c1TreeData) ∧
    GitScm.treeUnmarshalBinary none
        (GitScm.marshalObj (.tree GitScm.c1TreeData)) =
      .error .panicNilMap ∧
    GitScm.treeUnmarshalBinary (some [])
        (GitScm.marshalObj (.tree GitScm.c1TreeData)) =
      .ok GitScm.c1TreeData := by
  have ht : GitScm.treeNames GitScm.c1TreeData = [GitScm.str "a"] := by
    simp +decide [GitScm.treeNames, GitScm.c1TreeData, GitScm.trimSuffixSlash]
  have hbody : GitScm.marshalTreeBody GitScm.c1TreeData =
      GitScm.str "100644" ++ [32] ++ GitScm.str "a" ++ [0] ++
        List.replicate 20 5 := by
    simp only [GitScm.marshalTreeBody, ht]
    rfl
  have hm : GitScm.marshalObj (.tree GitScm.c1TreeData) =
      GitScm.str "tree 29" ++ [0] ++
        (GitScm.str "100644" ++ [32] ++ GitScm.str "a" ++ [0] ++
          List.replicate 20 5) := by
    simp only [GitScm.marshalObj, GitScm.marshalObjBody, hbody]
    rfl
  refine ⟨?_, ?_, ?_⟩
  · rw [hm, hbody]
    rfl
  · rw [hm]
    rfl
  · rw [hm]
    rfl

/-! ### The emit walk: termination potential and invariant -/

/-- A filtered, mapped sum never exceeds the unfiltered one. -/
theorem sum_map_filter_le (f : GitScm.ID × GitScm.Obj → Nat)
    (q : GitScm.ID × GitScm.Obj → Bool)
    (l : List (GitScm.ID × GitScm.Obj)) :
    ((l.filter q).map f).sum ≤ (l.map f).sum :=
  List.Sublist.sum_le_sum (List.Sublist.map f (List.filter_sublist l))
    (by simp)

/-- Dropping every entry keyed `id` from a list containing `(id, o)`
removes at least `f (id, o)` from the mapped sum. -/
theorem sum_filter_key_le (f : GitScm.ID × GitScm.Obj → Nat)
    (id : GitScm.ID) (o : GitScm.Obj)
    (l : List (GitScm.ID × GitScm.Obj)) (h : (id, o) ∈ l) :
    ((l.filter (fun p => !decide (p.1 = id))).map f).sum + f (id, o) ≤
      (l.map f).sum := by
  induction l with
  | nil => exact absurd h (List.not_mem_nil _)
  | cons p l ih =>
    rcases List.mem_cons.mp h with he | hmem
    · subst he
      have hc : (!decide ((id, o).1 = id)) = false := by simp
      rw [List.filter_cons, hc]
      simp only [Bool.false_eq_true, if_false, List.map_cons, List.sum_cons]
      have := sum_map_filter_le f (fun p => !decide (p.1 = id)) l
      omega
    · have hle := ih hmem
      rw [List.filter_cons]
      by_cases hp : p.1 = id
      · have hc : (!decide (p.1 = id)) = false := by simp [hp]
        rw [hc]
        simp only [Bool.false_eq_true, if_false, List.map_cons, List.sum_cons]
        omega
      · have hc : (!decide (p.1 = id)) = true := by simp [hp]
        rw [hc]
        simp only [if_true, List.map_cons, List.sum_cons]
        omega

/-- The root of an avoiding path is itself not avoided. -/
theorem reachesAvoid_root (repo : GitScm.Repo) (avoid : List GitScm.ID)
    {a b : GitScm.ID} (h : GitScm.ReachesAvoid repo avoid a b) :
    a ∉ avoid := by
  induction h with
  | refl h => exact h
  | tail _ _ _ _ ih => exact ih

/-- Completeness at a terminal walk state: with the visited set equal to
`avoid` plus the emitted list and every emitted object's references
visited, an avoiding path starting at an emitted id only reaches emitted
ids. -/
theorem reachesAvoid_mem (repo : GitScm.Repo) (avoid : List GitScm.ID)
    {s x : GitScm.ID} (h : GitScm.ReachesAvoid repo avoid s x) :
    ∀ (l vF : List GitScm.ID),
      (∀ y, y ∈ vF ↔ y ∈ avoid ∨ y ∈ l) →
      (∀ e ∈ l, ∀ o, GitScm.getObject repo e = .ok o →
        ∀ r ∈ GitScm.objRefs o, r ∈ vF ∨ r ∈ ([] : List GitScm.ID)) →
      s ∈ l → x ∈ l := by
  induction h with
  | refl hna =>
    intro l vF h1 h6 hs
    exact hs
  | tail hab hobj hmem hna ih =>
    intro l vF h1 h6 hs
    have hb := ih l vF h1 h6 hs
    rcases h6 _ hb _ hobj _ hmem with hin | hin
    · rcases (h1 _).mp hin with ha | hl
      · exact absurd ha hna
      · exact hl
    · exact absurd hin (List.not_mem_nil _)

/-- The walk invariant is preserved to the end of the walk, the fuel
`walkPotential` suffices, and the walk returns without error. -/
theorem emitWalk_invariant (repo : GitScm.Repo)
    (avoid start : List GitScm.ID)
    (hcw : ∀ p ∈ repo.objects, ∀ r ∈ GitScm.objRefs p.2,
      r ∈ avoid ∨ (repo.objects.lookup r).isSome) :
    ∀ fuel visited pending emitted,
      GitScm.WalkInv repo avoid start visited pending emitted →
      GitScm.walkPotential repo visited pending ≤ fuel →
      ∃ l vF, GitScm.emitWalk repo fuel visited pending emitted = .ok l ∧
        GitScm.WalkInv repo avoid start vF [] l := by
  intro fuel
  induction fuel with
  | zero =>
    intro visited pending emitted hinv hpot
    cases pending with
    | nil => exact ⟨emitted, visited, rfl, hinv⟩
    | cons id rest =>
      exfalso
      simp [GitScm.walkPotential] at hpot
  | succ fuel ih =>
    intro visited pending emitted hinv hpot
    cases pending with
    | nil => exact ⟨emitted, visited, rfl, hinv⟩
    | cons id rest =>
      obtain ⟨h1, h2, h3, h4, h6, h7, h8⟩ := hinv
      by_cases hv : id ∈ visited
      · have hstep : GitScm.emitWalk repo (fuel + 1) visited (id :: rest)
            emitted = GitScm.emitWalk repo fuel visited rest emitted := by
          simp [GitScm.emitWalk, hv]
        rw [hstep]
        apply ih
        · refine ⟨h1, h2, h3, ?_, ?_, ?_, ?_⟩
          · exact fun x hx => h4 x (List.mem_cons_of_mem _ hx)
          · intro e he o ho r hr
            rcases h6 e he o ho r hr with h | h
            · exact Or.inl h
            · rcases List.mem_cons.mp h with rfl | h
              · exact Or.inl hv
              · exact Or.inr h
          · intro t ht
            rcases h7 t ht with h | h
            · exact Or.inl h
            · rcases List.mem_cons.mp h with rfl | h
              · exact Or.inl hv
              · exact Or.inr h
          · exact fun x hx => h8 x (List.mem_cons_of_mem _ hx)
        · simp only [GitScm.walkPotential, List.length_cons] at hpot ⊢
          omega
      · have hna : id ∉ avoid := fun ha => hv ((h1 id).mpr (Or.inl ha))
        have hne : id ∉ emitted := fun he => hv ((h1 id).mpr (Or.inr he))
        have hlk : ∃ o, repo.objects.lookup id = some o := by
          rcases h8 id (List.mem_cons_self _ _) with ha | hs
          · exact absurd ha hna
          · exact Option.isSome_iff_exists.mp hs
        obtain ⟨o, hlko⟩ := hlk
        have ho : GitScm.getObject repo id = .ok o := by
          simp [GitScm.getObject, hlko]
        have hreach : ∃ s ∈ start, GitScm.ReachesAvoid repo avoid s id :=
          h4 id (List.mem_cons_self _ _) hna
        have hmemo : (id, o) ∈ repo.objects :=
          mem_of_lookup_some id repo.objects o hlko
        have hstep : GitScm.emitWalk repo (fuel + 1) visited (id :: rest)
            emitted =
            GitScm.emitWalk repo fuel (id :: visited)
              ((GitScm.objRefs o).reverse ++ rest) (emitted ++ [id]) := by
          simp [GitScm.emitWalk, hv, ho]
        rw [hstep]
        apply ih
        · refine ⟨?_, ?_, ?_, ?_, ?_, ?_, ?_⟩
          · intro x
            rw [List.mem_cons, h1 x, List.mem_append, List.mem_singleton]
            tauto
          · refine List.Nodup.append h2 (List.nodup_singleton id) ?_
            exact fun a ha hb => hne (List.mem_singleton.mp hb ▸ ha)
          · intro x hx
            rcases List.mem_append.mp hx with h | h
            · exact h3 x h
            · rw [List.mem_singleton.mp h]
              exact hreach
          · intro x hx hxa
            rcases List.mem_append.mp hx with h | h
            · obtain ⟨t, ht, hr⟩ := hreach
              exact ⟨t, ht,
                GitScm.ReachesAvoid.tail hr ho (List.mem_reverse.mp h) hxa⟩
            · exact h4 x (List.mem_cons_of_mem _ h) hxa
          · intro e he o2 ho2 r hr
            rcases List.mem_append.mp he with h | h
            · rcases h6 e h o2 ho2 r hr with hin | hin
              · exact Or.inl (List.mem_cons_of_mem _ hin)
              · rcases List.mem_cons.mp hin with rfl | hin
                · exact Or.inl (List.mem_cons_self _ _)
                · exact Or.inr (List.mem_append_right _ hin)
            · rw [List.mem_singleton.mp h] at ho2
              have hoo : o2 = o := by
                rw [ho] at ho2
                exact (Except.ok.inj ho2).symm
              subst hoo
              exact Or.inr (List.mem_append_left _ (List.mem_reverse.mpr hr))
          · intro t ht
            rcases h7 t ht with h | h
            · exact Or.inl (List.mem_cons_of_mem _ h)
            · rcases List.mem_cons.mp h with rfl | h
              · exact Or.inl (List.mem_cons_self _ _)
              · exact Or.inr (List.mem_append_right _ h)
          · intro x hx
            rcases List.mem_append.mp hx with h | h
            · exact hcw (id, o) hmemo x (List.mem_reverse.mp h)
            · exact h8 x (List.mem_cons_of_mem _ h)
        · have hsplit :
              repo.objects.filter (fun p => !decide (p.1 ∈ id :: visited)) =
                (repo.objects.filter
                  (fun p => !decide (p.1 ∈ visited))).filter
                  (fun p => !decide (p.1 = id)) := by
            rw [List.filter_filter]
            refine List.filter_congr ?_
            intro x hx
            by_cases hxi : x.1 = id <;> by_cases hxv : x.1 ∈ visited <;>
              simp [hxi, hxv, List.mem_cons]
          have hmemf : (id, o) ∈
              repo.objects.filter (fun p => !decide (p.1 ∈ visited)) :=
            List.mem_filter.mpr ⟨hmemo, by simp [hv]⟩
          have hkey := sum_filter_key_le
            (fun p => 1 + (GitScm.objRefs p.2).length) id o
            (repo.objects.filter (fun p => !decide (p.1 ∈ visited))) hmemf
          simp only at hkey
          simp only [GitScm.walkPotential, List.length_cons,
            List.length_append, List.length_reverse, hsplit] at hpot ⊢
          omega

/-- Claim C3, amended: under a closed object world — every wanted id and
every reference of every stored object is either a common (`end`) id or
present — the emit phase succeeds and emits, without duplicates, exactly
the objects reachable from some want along a path that avoids the common
ids entirely.  This is a superset of `reach(wants) minus reach(common)`:
an object reachable from both sides on disjoint paths is still
emitted. -/
theorem c3_emit_reachable (repo : GitScm.Repo)
    (start endIDs : List GitScm.ID)
    (hcw1 : ∀ id ∈ start, id ∈ endIDs ∨ (repo.objects.lookup id).isSome)
    (hcw2 : ∀ p ∈ repo.objects, ∀ r ∈ GitScm.objRefs p.2,
      r ∈ endIDs ∨ (repo.objects.lookup r).isSome) :
    ∃ l, GitScm.emitObjects repo start endIDs = .ok l ∧ l.Nodup ∧
      ∀ x, x ∈ l ↔ ∃ s ∈ start, GitScm.ReachesAvoid repo endIDs s x := by
  obtain ⟨l, vF, hrun, hfin⟩ := emitWalk_invariant repo endIDs start hcw2
    (GitScm.walkPotential repo endIDs start.reverse) endIDs
    start.reverse []
    ⟨fun x => by simp,
     List.nodup_nil,
     fun x hx => absurd hx (List.not_mem_nil _),
     fun x hx hna => ⟨x, List.mem_reverse.mp hx,
       GitScm.ReachesAvoid.refl x hna⟩,
     fun e he => absurd he (List.not_mem_nil _),
     fun t ht => Or.inr (List.mem_reverse.mpr ht),
     fun x hx => hcw1 x (List.mem_reverse.mp hx)⟩
    (le_refl _)
  obtain ⟨h1, h2, h3, h4, h6, h7, h8⟩ := hfin
  refine ⟨l, hrun, h2, fun x => ⟨fun hx => h3 x hx, ?_⟩⟩
  rintro ⟨t, ht, hr⟩
  have hroot : t ∈ l := by
    rcases h7 t ht with h | h
    · rcases (h1 t).mp h with ha | hl
      · exact absurd ha (reachesAvoid_root repo endIDs hr)
      · exact hl
    · exact absurd h (List.not_mem_nil _)
  exact reachesAvoid_mem repo endIDs hr l vF h1 h6 hroot

/-- Claim C3's exact-set-difference reading is false: in the repository
of an empty tree `T` and commits `C1` (tree `T`) and `C2` (tree `T`,
parent `C1`), packing wants `[C2]` against common `[C1]` emits `T` even
though `T` is reachable from the common commit `C1`, so the emitted set
is not `reach(wants) minus reach(common)`. -/
theorem c3_counterexample :
    GitScm.emitObjects GitScm.c6Repo [GitScm.c6C2] [GitScm.c6C1] =
      .ok [GitScm.c6C2, GitScm.c6Tid] ∧
    GitScm.Reaches GitScm.c6Repo GitScm.c6C1 GitScm.c6Tid := by
  constructor
  · rfl
  · exact GitScm.Reaches.tail (GitScm.Reaches.refl GitScm.c6C1) (by rfl)
      (List.mem_cons_self _ _)

/-- Witness for C3 at the concrete three-object repository: both
closed-world hypotheses hold by computation and the characterization
follows. -/
theorem c3_witness :
    ∃ l, GitScm.emitObjects GitScm.c6Repo [GitScm.c6C2] [GitScm.c6C1] =
        .ok l ∧ l.Nodup ∧
      ∀ x, x ∈ l ↔ ∃ s ∈ [GitScm.c6C2],
        GitScm.ReachesAvoid GitScm.c6Repo [GitScm.c6C1] s x :=
  c3_emit_reachable GitScm.c6Repo [GitScm.c6C2] [GitScm.c6C1]
    (by decide) (by decide)

end GitScm
